import Mathlib

/-!
# A verification development for the size-class allocator in `allocator.c`

The allocator keeps eight free lists (classes 16, 32, ..., 2048 bytes), formats
a fresh 4096-byte page into a header plus equal chunks when a list is empty,
and serves requests above 2048 bytes by a dedicated mapping.

The embedding is shallow.  Memory is a byte-addressed map, the free-list array
and the set of mapped regions are explicit state, and the result of the `mmap`
system call is an argument of `xxmalloc`.  Target assumptions: LP64,
little-endian (x86-64 Linux), so `int` is 4 bytes, `size_t`, `intptr_t` and
pointers are 8 bytes, and `header_t` has `magic_number` at offset 0 and `size`
at offset 8.
-/

namespace MallocLab

/-! ## Constants and macros -/

/-- The `#define MIN_MALLOC_SIZE 16`. -/
def MIN_MALLOC_SIZE : Nat := 16

/-- The `#define PAGE_SIZE 0x1000`. -/
def PAGE_SIZE : Nat := 0x1000

/-- The `#define MAGIC_NUM 123456`. -/
def MAGIC_NUM : Nat := 123456

/-- Number of values of a `size_t` (64-bit unsigned). -/
def SIZE_MOD : Nat := 2 ^ 64

/-- The macro `ROUND_UP(x, y)` on `size_t` operands: the sum wraps modulo `2^64`. -/
def ROUND_UP (x y : Nat) : Nat :=
  if x % y = 0 then x else (x + (y - x % y)) % SIZE_MOD

/-! ## Byte-addressed memory -/

/-- Memory contents: one byte per address. -/
abbrev Mem := Nat → Nat

/-- Little-endian load of `n` bytes starting at address `a`. -/
def loadLE (m : Mem) (a : Nat) : Nat → Nat
  | 0 => 0
  | n + 1 => m a % 256 + 256 * loadLE m (a + 1) n

/-- Little-endian store of the low `n` bytes of `v` at address `a`. -/
def storeLE (m : Mem) (a n v : Nat) : Mem :=
  fun x => if a ≤ x ∧ x < a + n then v / 256 ^ (x - a) % 256 else m x

/-- Memory with the bytes of `[a, a + len)` set to zero (a fresh anonymous mapping). -/
def zeroFill (m : Mem) (a len : Nat) : Mem :=
  fun x => if a ≤ x ∧ x < a + len then 0 else m x

/-- Whether byte `x` lies in one of the mapped regions `(base, length)`. -/
def mappedByte (mp : List (Nat × Nat)) (x : Nat) : Bool :=
  mp.any (fun r => decide (r.1 ≤ x ∧ x < r.1 + r.2))

/-- Whether all `n` bytes starting at `a` are mapped (so that the access does not trap). -/
def accessible (mp : List (Nat × Nat)) (a n : Nat) : Bool :=
  (List.range n).all (fun i => mappedByte mp (a + i))

/-! ## Program state and outcomes -/

/-- The allocator state: the global array `free_lists[8]` (entry `i` for `i < 8`;
`0` is `NULL`), the memory contents, and the regions obtained from `mmap`. -/
structure State where
  free_lists : Nat → Nat
  mem : Mem
  mapped : List (Nat × Nat)

/-- The state at program start: `free_lists = {NULL, ...}` and nothing mapped. -/
def init_state : State :=
  { free_lists := fun _ => 0, mem := fun _ => 0, mapped := [] }

/-- How a call ends: it returns, the process exits with a status (`exit(2)`),
the call performs an invalid access (an unmapped address or an index outside
`free_lists[0..7]`: undefined behaviour), or a loop never ends. -/
inductive Outcome (α : Type) where
  | ok : α → Outcome α
  | exit : Nat → Outcome α
  | fault : Outcome α
  | hang : Outcome α

/-! ## Integer helpers -/

/-- The value of a 64-bit pattern read as `intptr_t` (two's complement). -/
def toIntptr (p : Nat) : Int :=
  if p % SIZE_MOD < 2 ^ 63 then ((p % SIZE_MOD : Nat) : Int) else ((p % SIZE_MOD : Nat) : Int) - 2 ^ 64

/-- The 64-bit pattern of an `intptr_t` value (the cast back to a pointer). -/
def ofIntptr (i : Int) : Nat := (i % 2 ^ 64).toNat

/-- The expression `free_address - (free_address % PAGE_SIZE)` of
`xxmalloc_usable_size`, in signed 64-bit arithmetic (`%` truncates toward zero). -/
def page_start_of (ptr : Nat) : Nat :=
  ofIntptr (toIntptr ptr - Int.tmod (toIntptr ptr) (PAGE_SIZE : Nat))

/-- Floor of the base-2 logarithm, by halving (`fuel` bounds the bit length). -/
def floor_log2 : Nat → Nat → Nat
  | 0, _ => 0
  | fuel + 1, n => if 2 ≤ n then floor_log2 fuel (n / 2) + 1 else 0

/-- The statement `int index = log2(size) - 4;` together with the bounds of
`free_lists[8]`.  For `8 < size < 4096` the double `log2(size) - 4` lies in
`(-1, 8)` and its truncation toward zero is `floor(log2 size) - 4`, taken as `0`
when negative; this is exact for the doubles involved.  For any other `size`
the truncated value is negative or at least `8`, so the array access is out of
bounds: `none`. -/
def free_list_index (size : Nat) : Option Nat :=
  if 8 < size ∧ size < 4096 then some (floor_log2 64 size - 4) else none

/-! ## `round_to_pow_of_two` -/

/-- The loop `while (x > current) current *= 2;` on `size_t`, with `fuel`
iterations available; `none` when they do not suffice. -/
def round_loop : Nat → Nat → Nat → Option Nat
  | 0, _, _ => none
  | fuel + 1, x, current =>
    if x > current then round_loop fuel x (current * 2 % SIZE_MOD) else some current

/-- The function `round_to_pow_of_two`, run with `fuel` loop iterations. -/
def round_to_pow_of_two_fuel (fuel x : Nat) : Option Nat :=
  round_loop fuel x MIN_MALLOC_SIZE

/-- The function `round_to_pow_of_two`.  After 60 doublings `current` has wrapped
to `0` and stays there, so 64 iterations decide whether the loop ends. -/
def round_to_pow_of_two (x : Nat) : Option Nat :=
  round_to_pow_of_two_fuel 64 x

/-! ## The operating system -/

/-- The call `mmap(NULL, len, ...)`: `os` is the address the kernel chooses
(`none` for `MAP_FAILED`).  A zero length is rejected by the kernel.  The new
region reads as zero. -/
def mmap (st : State) (len : Nat) (os : Option Nat) : Option (Nat × State) :=
  if len = 0 then none
  else match os with
    | none => none
    | some p => some (p, { st with mem := zeroFill st.mem p len, mapped := (p, len) :: st.mapped })

/-! ## `xxmalloc` -/

/-- The loop of `xxmalloc` that separates the page into chunks:
`while (p + size < page_end) { p = p + size; current_node->next = p;
current_node = current_node->next; }`.  Returns the memory and `current_node`
at loop exit. -/
def carve : Nat → Mem → Nat → Nat → Nat → Nat → Option (Mem × Nat)
  | 0, _, _, _, _, _ => none
  | fuel + 1, m, p, size, page_end, current_node =>
    if p + size < page_end then
      let p1 := p + size
      let m1 := storeLE m current_node 8 p1
      carve fuel m1 p1 size page_end (loadLE m1 current_node 8)
    else some (m, current_node)

/-- The function `xxmalloc`; `os` is the answer of the kernel to the one `mmap`
call the function may make.  The accesses inside the page just mapped are not
checked: they lie in `[p, p + PAGE_SIZE)`. -/
def xxmalloc (st : State) (size : Nat) (os : Option Nat) : Outcome (Nat × State) :=
  if size > 2048 then
    match mmap st (ROUND_UP size PAGE_SIZE) os with
    | none => .exit 2
    | some (p, st1) => .ok (p, st1)
  else
    match round_to_pow_of_two size with
    | none => .hang
    | some size =>
      match free_list_index size with
      | none => .fault
      | some index =>
        if st.free_lists index ≠ 0 then
          let memory := st.free_lists index
          if accessible st.mapped memory 8 then
            .ok (memory, { st with free_lists := Function.update st.free_lists index (loadLE st.mem memory 8) })
          else .fault
        else
          match mmap st PAGE_SIZE os with
          | none => .exit 2
          | some (p, st1) =>
            let page_end := p + PAGE_SIZE
            let m1 := storeLE st1.mem p 4 MAGIC_NUM
            let m2 := storeLE m1 (p + 8) 8 size
            let p1 := p + size
            match carve PAGE_SIZE m2 p1 size page_end p1 with
            | none => .hang
            | some (m3, current_node) =>
              let m4 := storeLE m3 current_node 8 0
              let memory := p1
              .ok (memory, { free_lists := Function.update st.free_lists index (loadLE m4 memory 8),
                             mem := m4, mapped := st1.mapped })

/-! ## `xxmalloc_usable_size` and `xxfree` -/

/-- The function `xxmalloc_usable_size`. -/
def xxmalloc_usable_size (st : State) (ptr : Nat) : Outcome Nat :=
  if ptr = 0 then .ok 0
  else
    let page_start := page_start_of ptr
    if accessible st.mapped page_start 4 then
      if loadLE st.mem page_start 4 ≠ MAGIC_NUM then .ok 0
      else if accessible st.mapped (page_start + 8) 8 then
        .ok (loadLE st.mem (page_start + 8) 8)
      else .fault
    else .fault

/-- The function `xxfree`.  In `free_address % size` the operand `size` is
unsigned, so the remainder is the unsigned one. -/
def xxfree (st : State) (ptr : Nat) : Outcome State :=
  if ptr = 0 then .ok st
  else
    match xxmalloc_usable_size st ptr with
    | .ok size =>
      if size = 0 then .ok st
      else
        match free_list_index size with
        | none => .fault
        | some index =>
          let object_start := ptr - ptr % size
          if accessible st.mapped object_start 8 then
            .ok { st with mem := storeLE st.mem object_start 8 (st.free_lists index),
                          free_lists := Function.update st.free_lists index object_start }
          else .fault
    | .exit c => .exit c
    | .fault => .fault
    | .hang => .hang


/-! ## Specification-level notions -/

/-- Byte count of the size class with free-list index `i`: 16, 32, ..., 2048 for `i < 8`. -/
def class_size (i : Nat) : Nat := 16 * 2 ^ i

/-- The size class `xxmalloc` computes for a small request (`0` if the rounding loop hangs). -/
def request_class (size : Nat) : Nat := (round_to_pow_of_two size).getD 0

/-- The free-list index `xxmalloc` computes for a small request. -/
def request_index (size : Nat) : Nat :=
  ((round_to_pow_of_two size).bind free_list_index).getD 0

/-- Smallest power of two that is at least `n`, by search from `2^0` (`fuel` candidates). -/
def smallest_pow2_ge : Nat → Nat → Nat → Nat
  | 0, _, cand => cand
  | fuel + 1, n, cand => if n ≤ cand then cand else smallest_pow2_ge fuel n (cand * 2)

/-- What the caller may use of an object obtained for a request of `size` bytes:
the whole chunk for a small request, the whole mapping for a large one. -/
def extent (size : Nat) : Nat :=
  if size > 2048 then ROUND_UP size PAGE_SIZE else request_class size

/-- Bookkeeping of a run that the program itself does not store: the objects
handed out and not yet released, as `(pointer, requested size)`, and the pages
formatted by `xxmalloc`, as `(base, free-list index)`. -/
structure Ghost where
  live : List (Nat × Nat)
  slabs : List (Nat × Nat)

/-- The kernel answers `mmap` with a region `[p, p + len)` that is page-aligned,
not at address 0, disjoint from every region mapped so far, and made of
user-space addresses: they lie below `2^63`, so they are non-negative as
`intptr_t`. -/
def FreshMapping (st : State) (p len : Nat) : Prop :=
  p ≠ 0 ∧ p % PAGE_SIZE = 0 ∧ p + len ≤ 2 ^ 63 ∧
    ∀ r ∈ st.mapped, p + len ≤ r.1 ∨ r.1 + r.2 ≤ p

/-- States reached from the initial state by well-behaved use: calls of
`xxmalloc` (three constructors, by the path taken) answered by a well-behaved
kernel, calls of `xxfree` on live pointers, and writes of the caller inside
live objects.  With `guarded = true` a large object is released only while the
first four bytes of its mapping differ from the magic number. -/
inductive Reach (guarded : Bool) : State → Ghost → Prop where
  | init : Reach guarded init_state ⟨[], []⟩
  | malloc_large (st : State) (g : Ghost) (size a p : Nat) (st1 : State) :
      Reach guarded st g → 2048 < size → size < SIZE_MOD →
      FreshMapping st a (ROUND_UP size PAGE_SIZE) →
      xxmalloc st size (some a) = Outcome.ok (p, st1) →
      Reach guarded st1 ⟨(p, size) :: g.live, g.slabs⟩
  | malloc_reuse (st : State) (g : Ghost) (size : Nat) (os : Option Nat) (p : Nat) (st1 : State) :
      Reach guarded st g → size ≤ 2048 → st.free_lists (request_index size) ≠ 0 →
      xxmalloc st size os = Outcome.ok (p, st1) →
      Reach guarded st1 ⟨(p, size) :: g.live, g.slabs⟩
  | malloc_fresh (st : State) (g : Ghost) (size a p : Nat) (st1 : State) :
      Reach guarded st g → size ≤ 2048 → st.free_lists (request_index size) = 0 →
      FreshMapping st a PAGE_SIZE →
      xxmalloc st size (some a) = Outcome.ok (p, st1) →
      Reach guarded st1 ⟨(p, size) :: g.live, (a, request_index size) :: g.slabs⟩
  | free (st : State) (g : Ghost) (p size : Nat) (st1 : State) :
      Reach guarded st g → (p, size) ∈ g.live →
      (guarded = true → 2048 < size → loadLE st.mem p 4 ≠ MAGIC_NUM) →
      xxfree st p = Outcome.ok st1 →
      Reach guarded st1 ⟨g.live.erase (p, size), g.slabs⟩
  | write (st : State) (g : Ghost) (p size a b : Nat) :
      Reach guarded st g → (p, size) ∈ g.live → p ≤ a → a < p + extent size → b < 256 →
      Reach guarded { st with mem := Function.update st.mem a b } g

/-- The nodes of the NULL-terminated list that starts at `head`, in order. -/
def IsList (m : Mem) : Nat → List Nat → Prop
  | head, [] => head = 0
  | head, a :: l => head = a ∧ a ≠ 0 ∧ IsList m (loadLE m a 8) l

/-- Address `a` is a chunk of a formatted page of class index `i`:
`a = base + k * class_size i` with `1 ≤ k < 4096 / class_size i`. -/
def IsChunk (slabs : List (Nat × Nat)) (i a : Nat) : Prop :=
  ∃ b k, (b, i) ∈ slabs ∧ 1 ≤ k ∧ k < PAGE_SIZE / class_size i ∧ a = b + k * class_size i

/-- The addresses `p, p + c, ..., p + (j - 1) * c`. -/
def chain (p c : Nat) : Nat → List Nat
  | 0 => []
  | j + 1 => p :: chain (p + c) c j

/-- Memory after `j` iterations of the chunk-separating loop started at `p`. -/
def linkMem : Mem → Nat → Nat → Nat → Mem
  | m, _, _, 0 => m
  | m, p, c, j + 1 => linkMem (storeLE m p 8 (p + c)) (p + c) c j

/-- Memory after `xxmalloc` has mapped a page at `a` and formatted it for chunk size `c`. -/
def slab_mem (m : Mem) (a c : Nat) : Mem :=
  storeLE
    (linkMem (storeLE (storeLE (zeroFill m a PAGE_SIZE) a 4 MAGIC_NUM) (a + 8) 8 c)
      (a + c) c (PAGE_SIZE / c - 2))
    (a + c + (PAGE_SIZE / c - 2) * c) 8 0

/-- The invariant of well-behaved runs, relative to the contents `fl i` of the
eight free lists. -/
structure Inv (st : State) (g : Ghost) (fl : Nat → List Nat) : Prop where
  regions : ∀ r ∈ st.mapped,
    r.1 ≠ 0 ∧ r.1 % PAGE_SIZE = 0 ∧ r.2 % PAGE_SIZE = 0 ∧ 0 < r.2 ∧ r.1 + r.2 ≤ 2 ^ 63
  disjoint : ∀ r ∈ st.mapped, ∀ q ∈ st.mapped, r ≠ q → r.1 + r.2 ≤ q.1 ∨ q.1 + q.2 ≤ r.1
  slab_page : ∀ b i, (b, i) ∈ g.slabs → i < 8 ∧ (b, PAGE_SIZE) ∈ st.mapped
  slab_header : ∀ b i, (b, i) ∈ g.slabs →
    loadLE st.mem b 4 = MAGIC_NUM ∧ loadLE st.mem (b + 8) 8 = class_size i
  lists : ∀ i, i < 8 → IsList st.mem (st.free_lists i) (fl i)
  lists_nodup : ∀ i, i < 8 → (fl i).Nodup
  free_chunk : ∀ i, i < 8 → ∀ a ∈ fl i, IsChunk g.slabs i a
  live_small : ∀ p s, (p, s) ∈ g.live → s ≤ 2048 → IsChunk g.slabs (request_index s) p
  live_large : ∀ p s, (p, s) ∈ g.live → 2048 < s →
    (p, ROUND_UP s PAGE_SIZE) ∈ st.mapped ∧ ∀ i, (p, i) ∉ g.slabs
  live_nodup : (g.live.map Prod.fst).Nodup
  free_not_live : ∀ i, i < 8 → ∀ a ∈ fl i, ∀ s, (a, s) ∉ g.live
  complete : ∀ b i, (b, i) ∈ g.slabs → ∀ k, 1 ≤ k → k < PAGE_SIZE / class_size i →
    b + k * class_size i ∈ fl i ∨ ∃ s, s ≤ 2048 ∧ (b + k * class_size i, s) ∈ g.live

/-! ## Concrete runs used as examples -/

/-- After `xxmalloc(2048)` from the initial state, the kernel answering `0x1000`:
the page is formatted for class 2048 and its only chunk `0x1800` is handed out. -/
def steal_s1 : State :=
  { free_lists := Function.update init_state.free_lists 7
      (loadLE (slab_mem init_state.mem 4096 2048) (4096 + 2048) 8),
    mem := slab_mem init_state.mem 4096 2048,
    mapped := (4096, PAGE_SIZE) :: init_state.mapped }

/-- The state `xxmalloc` leaves when it formats a page at `a` for a request of `s ≤ 2048` bytes. -/
def after_fresh (st : State) (s a : Nat) : State :=
  { free_lists := Function.update st.free_lists (request_index s)
      (loadLE (slab_mem st.mem a (request_class s)) (a + request_class s) 8),
    mem := slab_mem st.mem a (request_class s),
    mapped := (a, PAGE_SIZE) :: st.mapped }

/-- The state `xxmalloc` leaves when it pops the free list for a request of `s ≤ 2048` bytes. -/
def after_reuse (st : State) (s : Nat) : State :=
  { st with free_lists := Function.update st.free_lists (request_index s)
              (loadLE st.mem (st.free_lists (request_index s)) 8) }

/-- The state `xxmalloc` leaves when it maps a large object of `s > 2048` bytes at `a`. -/
def after_large (st : State) (s a : Nat) : State :=
  { st with mem := zeroFill st.mem a (ROUND_UP s PAGE_SIZE),
            mapped := (a, ROUND_UP s PAGE_SIZE) :: st.mapped }

/-- The state `xxfree` leaves when it releases the chunk `p` obtained for `s ≤ 2048` bytes. -/
def after_free (st : State) (s p : Nat) : State :=
  { st with mem := storeLE st.mem p 8 (st.free_lists (request_index s)),
            free_lists := Function.update st.free_lists (request_index s) p }

/-! ## Further specification-level notions -/

/-- The page at `b` is a formatted page of class index `i`: page-aligned user-space
addresses, all mapped, with the magic number and the class size in the header. -/
def FormattedPage (st : State) (b i : Nat) : Prop :=
  i < 8 ∧ b ≠ 0 ∧ b % PAGE_SIZE = 0 ∧ b + PAGE_SIZE ≤ 2 ^ 63 ∧
    accessible st.mapped b PAGE_SIZE = true ∧
    loadLE st.mem b 4 = MAGIC_NUM ∧ loadLE st.mem (b + 8) 8 = class_size i

/-- Number of live objects of the class with index `i`. -/
def live_count (g : Ghost) (i : Nat) : Nat :=
  g.live.countP (fun e => decide (e.2 ≤ 2048 ∧ request_index e.2 = i))

/-- One step of a well-behaved run in which no large object is released while its
mapping starts with the magic number: the five ways `Reach true` extends a run. -/
inductive GuardedStep : State → Ghost → State → Ghost → Prop where
  | malloc_large (st : State) (g : Ghost) (size a p : Nat) (st1 : State) :
      2048 < size → size < SIZE_MOD →
      FreshMapping st a (ROUND_UP size PAGE_SIZE) →
      xxmalloc st size (some a) = Outcome.ok (p, st1) →
      GuardedStep st g st1 ⟨(p, size) :: g.live, g.slabs⟩
  | malloc_reuse (st : State) (g : Ghost) (size : Nat) (os : Option Nat) (p : Nat) (st1 : State) :
      size ≤ 2048 → st.free_lists (request_index size) ≠ 0 →
      xxmalloc st size os = Outcome.ok (p, st1) →
      GuardedStep st g st1 ⟨(p, size) :: g.live, g.slabs⟩
  | malloc_fresh (st : State) (g : Ghost) (size a p : Nat) (st1 : State) :
      size ≤ 2048 → st.free_lists (request_index size) = 0 →
      FreshMapping st a PAGE_SIZE →
      xxmalloc st size (some a) = Outcome.ok (p, st1) →
      GuardedStep st g st1 ⟨(p, size) :: g.live, (a, request_index size) :: g.slabs⟩
  | free (st : State) (g : Ghost) (p size : Nat) (st1 : State) :
      (p, size) ∈ g.live →
      (2048 < size → loadLE st.mem p 4 ≠ MAGIC_NUM) →
      xxfree st p = Outcome.ok st1 →
      GuardedStep st g st1 ⟨g.live.erase (p, size), g.slabs⟩
  | write (st : State) (g : Ghost) (p size a b : Nat) :
      (p, size) ∈ g.live → p ≤ a → a < p + extent size → b < 256 →
      GuardedStep st g { st with mem := Function.update st.mem a b } g

/-- The runs of `Reach true`, with the peak number of simultaneously live
objects of each class recorded along the run. -/
inductive ReachPeak : State → Ghost → (Nat → Nat) → Prop where
  | init : ReachPeak init_state ⟨[], []⟩ (fun _ => 0)
  | step (st : State) (g : Ghost) (pk : Nat → Nat) (st1 : State) (g1 : Ghost) :
      ReachPeak st g pk → GuardedStep st g st1 g1 →
      ReachPeak st1 g1 (fun i => max (pk i) (live_count g1 i))

/-- A state in which the 16 bytes at address 0 are mapped and hold the header
`{123456, 16}`; everything else is zero and unmapped. -/
def high_s : State :=
  { free_lists := fun _ => 0,
    mem := storeLE (storeLE (fun _ => 0) 0 4 MAGIC_NUM) 8 8 16,
    mapped := [(0, 16)] }

theorem loadLE_congr (m m1 : Mem) (n : Nat) : ∀ a : Nat,
    (∀ x, a ≤ x → x < a + n → m1 x = m x) → loadLE m1 a n = loadLE m a n := by
  induction n with
  | zero => intro a _; rfl
  | succ n ih =>
    intro a h
    simp only [loadLE]
    rw [h a (le_refl a) (by omega), ih (a + 1) (fun x h1 h2 => h x (by omega) (by omega))]

theorem loadLE_storeLE_same (m : Mem) (n : Nat) : ∀ a v : Nat,
    loadLE (storeLE m a n v) a n = v % 256 ^ n := by
  induction n with
  | zero => intro a v; simp [loadLE, Nat.mod_one]
  | succ n ih =>
    intro a v
    have hrest : loadLE (storeLE m a (n + 1) v) (a + 1) n
        = loadLE (storeLE m (a + 1) n (v / 256)) (a + 1) n := by
      apply loadLE_congr
      intro x h1 h2
      have e : x - a = (x - (a + 1)) + 1 := by omega
      simp only [storeLE]
      rw [if_pos ⟨by omega, by omega⟩, if_pos ⟨h1, h2⟩, e, pow_succ, Nat.mul_comm,
        Nat.div_div_eq_div_mul]
    simp only [loadLE]
    rw [hrest, ih (a + 1) (v / 256), pow_succ', Nat.mod_mul]
    simp [storeLE]

theorem loadLE_storeLE_other (m : Mem) (a n v b k : Nat) (h : b + k ≤ a ∨ a + n ≤ b) :
    loadLE (storeLE m a n v) b k = loadLE m b k := by
  apply loadLE_congr
  intro x h1 h2
  simp only [storeLE]
  rw [if_neg (by omega)]

theorem loadLE_zero (m : Mem) (k : Nat) : ∀ b : Nat,
    (∀ x, b ≤ x → x < b + k → m x = 0) → loadLE m b k = 0 := by
  induction k with
  | zero => intro b _; rfl
  | succ k ih =>
    intro b h
    simp only [loadLE]
    rw [h b (le_refl b) (by omega), ih (b + 1) (fun x h1 h2 => h x (by omega) (by omega))]

theorem accessible_of_mem (mp : List (Nat × Nat)) (b len a n : Nat)
    (hm : (b, len) ∈ mp) (h1 : b ≤ a) (h2 : a + n ≤ b + len) : accessible mp a n = true := by
  unfold accessible
  rw [List.all_eq_true]
  intro i hi
  rw [List.mem_range] at hi
  unfold mappedByte
  rw [List.any_eq_true]
  exact ⟨(b, len), hm, decide_eq_true ⟨by simp only; omega, by simp only; omega⟩⟩

theorem mappedByte_of_mem (mp : List (Nat × Nat)) (b len x : Nat) (h : (b, len) ∈ mp)
    (h1 : b ≤ x) (h2 : x < b + len) : mappedByte mp x = true := by
  unfold mappedByte
  rw [List.any_eq_true]
  exact ⟨(b, len), h, by simpa using ⟨h1, h2⟩⟩

theorem page_start_of_eq (ptr : Nat) (h : ptr < 2 ^ 63) :
    page_start_of ptr = ptr - ptr % PAGE_SIZE := by
  unfold page_start_of toIntptr ofIntptr SIZE_MOD PAGE_SIZE
  have h1 : ptr % 2 ^ 64 = ptr := Nat.mod_eq_of_lt (by omega)
  rw [h1, if_pos h]
  have h2 : Int.tmod (ptr : Int) ((4096 : Nat) : Int) = ((ptr % 4096 : Nat) : Int) := rfl
  simp only [Nat.reduceLeDiff] at *
  norm_num at h2 ⊢
  rw [h2]
  omega

/-- For a pointer with the top bit set the signed remainder is not positive, and
`free_address - free_address % PAGE_SIZE` is the next multiple of 4096 at or
above the pointer, modulo `2^64`. -/
theorem page_start_of_high (ptr : Nat) (h1 : 2 ^ 63 ≤ ptr) (h2 : ptr < 2 ^ 64) :
    page_start_of ptr = (ptr + (SIZE_MOD - ptr) % PAGE_SIZE) % SIZE_MOD := by
  unfold page_start_of toIntptr ofIntptr SIZE_MOD PAGE_SIZE
  have e1 : ptr % 2 ^ 64 = ptr := Nat.mod_eq_of_lt h2
  rw [e1, if_neg (by omega)]
  obtain ⟨k, hk⟩ : ∃ k, 2 ^ 64 - ptr = k + 1 := ⟨2 ^ 64 - ptr - 1, by omega⟩
  have e2 : ((ptr : Nat) : Int) - 2 ^ 64 = Int.negSucc k := by
    rw [Int.negSucc_eq]
    omega
  rw [e2]
  have e3 : Int.tmod (Int.negSucc k) ((4096 : Nat) : Int) = -(((k + 1) % 4096 : Nat) : Int) := rfl
  rw [e3, hk]
  rw [Int.negSucc_eq]
  have hm : (k + 1) % 4096 < 4096 := Nat.mod_lt _ (by norm_num)
  have hm2 : (k + 1) % 4096 ≤ k + 1 := Nat.mod_le _ _
  by_cases hz : ptr + (k + 1) % 4096 = 2 ^ 64
  · rw [hz, Nat.mod_self]
    have : (-((k : Int) + 1) - -(((k + 1) % 4096 : Nat) : Int)) = 0 := by omega
    rw [this]
    rfl
  · have hlt : ptr + (k + 1) % 4096 < 2 ^ 64 := by omega
    rw [Nat.mod_eq_of_lt hlt]
    have : (-((k : Int) + 1) - -(((k + 1) % 4096 : Nat) : Int))
        = ((ptr + (k + 1) % 4096 : Nat) : Int) - 2 ^ 64 := by
      push_cast
      omega
    rw [this]
    have h4 : (((ptr + (k + 1) % 4096 : Nat) : Int) - 2 ^ 64) % 2 ^ 64
        = ((ptr + (k + 1) % 4096 : Nat) : Int) := by
      rw [Int.sub_emod, Int.emod_self, sub_zero, Int.emod_emod_of_dvd _ (dvd_refl _)]
      exact Int.emod_eq_of_lt (by omega) (by omega)
    rw [h4]
    exact Int.toNat_ofNat _

theorem class_size_cases (i : Nat) (h : i < 8) :
    class_size i = 16 ∨ class_size i = 32 ∨ class_size i = 64 ∨ class_size i = 128 ∨
    class_size i = 256 ∨ class_size i = 512 ∨ class_size i = 1024 ∨ class_size i = 2048 := by
  unfold class_size
  interval_cases i <;> simp

theorem free_list_index_class (i : Nat) (h : i < 8) : free_list_index (class_size i) = some i := by
  interval_cases i <;> rfl

theorem round_loop_step (f x c : Nat) (h : c < x) :
    round_loop (f + 1) x c = round_loop f x (c * 2 % SIZE_MOD) := by
  simp [round_loop, h]

theorem round_loop_stop (f x c : Nat) (h : x ≤ c) : round_loop (f + 1) x c = some c := by
  simp only [round_loop]
  rw [if_neg (by omega)]

theorem round_loop_small (x f : Nat) (h : x ≤ 2048) :
    ∃ i, i < 8 ∧ round_loop (f + 8) x 16 = some (class_size i) ∧ x ≤ class_size i ∧
      (i = 0 ∨ class_size (i - 1) < x) := by
  by_cases h0 : x ≤ 16
  · exact ⟨0, by omega, round_loop_stop _ _ _ h0, h0, Or.inl rfl⟩
  rw [round_loop_step _ _ _ (by omega), show 16 * 2 % SIZE_MOD = 32 from rfl]
  by_cases h1 : x ≤ 32
  · exact ⟨1, by omega, round_loop_stop _ _ _ h1, h1, Or.inr (by show 16 < x; omega)⟩
  rw [round_loop_step _ _ _ (by omega), show 32 * 2 % SIZE_MOD = 64 from rfl]
  by_cases h2 : x ≤ 64
  · exact ⟨2, by omega, round_loop_stop _ _ _ h2, h2, Or.inr (by show 32 < x; omega)⟩
  rw [round_loop_step _ _ _ (by omega), show 64 * 2 % SIZE_MOD = 128 from rfl]
  by_cases h3 : x ≤ 128
  · exact ⟨3, by omega, round_loop_stop _ _ _ h3, h3, Or.inr (by show 64 < x; omega)⟩
  rw [round_loop_step _ _ _ (by omega), show 128 * 2 % SIZE_MOD = 256 from rfl]
  by_cases h4 : x ≤ 256
  · exact ⟨4, by omega, round_loop_stop _ _ _ h4, h4, Or.inr (by show 128 < x; omega)⟩
  rw [round_loop_step _ _ _ (by omega), show 256 * 2 % SIZE_MOD = 512 from rfl]
  by_cases h5 : x ≤ 512
  · exact ⟨5, by omega, round_loop_stop _ _ _ h5, h5, Or.inr (by show 256 < x; omega)⟩
  rw [round_loop_step _ _ _ (by omega), show 512 * 2 % SIZE_MOD = 1024 from rfl]
  by_cases h6 : x ≤ 1024
  · exact ⟨6, by omega, round_loop_stop _ _ _ h6, h6, Or.inr (by show 512 < x; omega)⟩
  rw [round_loop_step _ _ _ (by omega), show 1024 * 2 % SIZE_MOD = 2048 from rfl]
  exact ⟨7, by omega, round_loop_stop _ _ _ h, h, Or.inr (by show 1024 < x; omega)⟩

theorem round_to_pow_of_two_small (x : Nat) (h : x ≤ 2048) :
    ∃ i, i < 8 ∧ round_to_pow_of_two x = some (class_size i) ∧ x ≤ class_size i ∧
      (i = 0 ∨ class_size (i - 1) < x) :=
  round_loop_small x 56 h

theorem class_size_min_pow (i x k : Nat) (h1 : i = 0 ∨ class_size (i - 1) < x)
    (h2 : max x 16 ≤ 2 ^ k) : class_size i ≤ 2 ^ k := by
  have e : class_size i = 2 ^ (i + 4) := by unfold class_size; rw [pow_add]; ring
  by_contra hc
  rw [e, not_le] at hc
  have hk : k < i + 4 := (Nat.pow_lt_pow_iff_right (by norm_num)).mp hc
  rcases h1 with h1 | h1
  · subst h1
    have : 2 ^ k ≤ 2 ^ 3 := Nat.pow_le_pow_right (by norm_num) (by omega)
    have : 16 ≤ 2 ^ k := le_trans (le_max_right _ _) h2
    omega
  · have e1 : class_size (i - 1) = 2 ^ (i - 1 + 4) := by unfold class_size; rw [pow_add]; ring
    by_cases hi : i = 0
    · subst hi
      have : 2 ^ k ≤ 2 ^ 3 := Nat.pow_le_pow_right (by norm_num) (by omega)
      have : 16 ≤ 2 ^ k := le_trans (le_max_right _ _) h2
      omega
    · have : 2 ^ k ≤ 2 ^ (i - 1 + 4) := Nat.pow_le_pow_right (by norm_num) (by omega)
      have : x ≤ 2 ^ k := le_trans (le_max_left _ _) h2
      omega

theorem smallest_pow2_ge_step (f n c : Nat) (h : c < n) :
    smallest_pow2_ge (f + 1) n c = smallest_pow2_ge f n (c * 2) := by
  simp only [smallest_pow2_ge]
  rw [if_neg (by omega)]

theorem smallest_pow2_ge_stop (f n c : Nat) (h : n ≤ c) : smallest_pow2_ge (f + 1) n c = c := by
  simp only [smallest_pow2_ge]
  rw [if_pos h]

theorem smallest_pow2_ge_class (i x : Nat) (hi : i < 8) (hle : x ≤ class_size i)
    (hmin : i = 0 ∨ class_size (i - 1) < x) :
    smallest_pow2_ge 64 (max x 16) 1 = class_size i := by
  have h16 : 16 ≤ max x 16 := le_max_right _ _
  have hx : x ≤ max x 16 := le_max_left _ _
  have hm : max x 16 ≤ class_size i := by
    have : 16 ≤ class_size i := by unfold class_size; have h1 : 1 ≤ 2 ^ i := Nat.one_le_two_pow; omega
    exact max_le hle this
  generalize max x 16 = m at *
  rw [smallest_pow2_ge_step _ _ _ (by omega), smallest_pow2_ge_step _ _ _ (by omega),
    smallest_pow2_ge_step _ _ _ (by omega), smallest_pow2_ge_step _ _ _ (by omega)]
  have hm2 : i = 0 ∨ class_size (i - 1) < m := by
    rcases hmin with h | h
    · exact Or.inl h
    · exact Or.inr (by omega)
  clear hmin hx hle
  interval_cases i <;> simp [class_size] at hm hm2 ⊢
  · exact smallest_pow2_ge_stop _ _ _ hm
  · rw [smallest_pow2_ge_step _ _ _ (by omega)]
    exact smallest_pow2_ge_stop _ _ _ hm
  · rw [smallest_pow2_ge_step _ _ _ (by omega), smallest_pow2_ge_step _ _ _ (by omega)]
    exact smallest_pow2_ge_stop _ _ _ hm
  · rw [smallest_pow2_ge_step _ _ _ (by omega), smallest_pow2_ge_step _ _ _ (by omega),
      smallest_pow2_ge_step _ _ _ (by omega)]
    exact smallest_pow2_ge_stop _ _ _ hm
  · rw [smallest_pow2_ge_step _ _ _ (by omega), smallest_pow2_ge_step _ _ _ (by omega),
      smallest_pow2_ge_step _ _ _ (by omega), smallest_pow2_ge_step _ _ _ (by omega)]
    exact smallest_pow2_ge_stop _ _ _ hm
  · rw [smallest_pow2_ge_step _ _ _ (by omega), smallest_pow2_ge_step _ _ _ (by omega),
      smallest_pow2_ge_step _ _ _ (by omega), smallest_pow2_ge_step _ _ _ (by omega),
      smallest_pow2_ge_step _ _ _ (by omega)]
    exact smallest_pow2_ge_stop _ _ _ hm
  · rw [smallest_pow2_ge_step _ _ _ (by omega), smallest_pow2_ge_step _ _ _ (by omega),
      smallest_pow2_ge_step _ _ _ (by omega), smallest_pow2_ge_step _ _ _ (by omega),
      smallest_pow2_ge_step _ _ _ (by omega), smallest_pow2_ge_step _ _ _ (by omega)]
    exact smallest_pow2_ge_stop _ _ _ hm
  · rw [smallest_pow2_ge_step _ _ _ (by omega), smallest_pow2_ge_step _ _ _ (by omega),
      smallest_pow2_ge_step _ _ _ (by omega), smallest_pow2_ge_step _ _ _ (by omega),
      smallest_pow2_ge_step _ _ _ (by omega), smallest_pow2_ge_step _ _ _ (by omega),
      smallest_pow2_ge_step _ _ _ (by omega)]
    exact smallest_pow2_ge_stop _ _ _ hm

/-- C4: for every `x ≤ 2048` the rounding loop ends (any fuel of at least 8
iterations gives the same result) and `round_to_pow_of_two x` is one of the
eight class sizes, is at least `x`, is the least class size and the least power
of two that is at least `max x 16`; it fixes the class sizes and sends 0 to 16. -/
theorem round_to_pow_of_two_canonical (x fuel : Nat) (hx : x ≤ 2048) (hf : 8 ≤ fuel) :
    ∃ c, round_to_pow_of_two_fuel fuel x = some c ∧ round_to_pow_of_two x = some c ∧
      c ∈ [16, 32, 64, 128, 256, 512, 1024, 2048] ∧ x ≤ c ∧
      (∀ d ∈ [16, 32, 64, 128, 256, 512, 1024, 2048], x ≤ d → c ≤ d) ∧
      (∃ k, c = 2 ^ k) ∧ max x 16 ≤ c ∧ (∀ k, max x 16 ≤ 2 ^ k → c ≤ 2 ^ k) ∧
      c = smallest_pow2_ge 64 (max x 16) 1 ∧
      (x ∈ [16, 32, 64, 128, 256, 512, 1024, 2048] → c = x) ∧ (x = 0 → c = 16) := by
  obtain ⟨f, rfl⟩ : ∃ f, fuel = f + 8 := ⟨fuel - 8, by omega⟩
  obtain ⟨i, hi, hr, hle, hmin⟩ := round_loop_small x f hx
  obtain ⟨j, hj, hr2, hle2, hmin2⟩ := round_to_pow_of_two_small x hx
  have hij : i = j := by
    rcases hmin with h | h <;> rcases hmin2 with h2 | h2 <;>
      interval_cases i <;> interval_cases j <;> simp [class_size] at * <;> omega
  subst hij
  refine ⟨class_size i, hr, hr2, ?_, hle, ?_, ⟨i + 4, by unfold class_size; rw [pow_add]; ring⟩,
    ?_, fun k hk => class_size_min_pow i x k hmin hk, ?_, ?_, ?_⟩
  · interval_cases i <;> simp [class_size]
  · intro d hd hxd
    simp only [List.mem_cons, List.mem_singleton, List.not_mem_nil, or_false] at hd
    interval_cases i <;> simp [class_size] at * <;> omega
  · have : 16 ≤ class_size i := by unfold class_size; have h1 : 1 ≤ 2 ^ i := Nat.one_le_two_pow; omega
    exact max_le hle this
  · exact (smallest_pow2_ge_class i x hi hle hmin).symm
  · intro hd
    simp only [List.mem_cons, List.mem_singleton, List.not_mem_nil, or_false] at hd
    interval_cases i <;> simp [class_size] at * <;> omega
  · intro h0
    subst h0
    interval_cases i <;> simp [class_size] at * 

/-- An instance: `x = 17` with 8 iterations of fuel. -/
theorem round_to_pow_of_two_canonical_witness :
    17 ≤ 2048 ∧ 8 ≤ 8 ∧ ∃ c, round_to_pow_of_two_fuel 8 17 = some c ∧ round_to_pow_of_two 17 = some c ∧
      c ∈ [16, 32, 64, 128, 256, 512, 1024, 2048] ∧ 17 ≤ c ∧
      (∀ d ∈ [16, 32, 64, 128, 256, 512, 1024, 2048], 17 ≤ d → c ≤ d) ∧
      (∃ k, c = 2 ^ k) ∧ max 17 16 ≤ c ∧ (∀ k, max 17 16 ≤ 2 ^ k → c ≤ 2 ^ k) ∧
      c = smallest_pow2_ge 64 (max 17 16) 1 ∧
      (17 ∈ [16, 32, 64, 128, 256, 512, 1024, 2048] → c = 17) ∧ (17 = 0 → c = 16) :=
  ⟨by decide, by decide, round_to_pow_of_two_canonical 17 8 (by decide) (by decide)⟩



/-! ## The chunk-separating loop -/

theorem carve_eq (c : Nat) (hc : 0 < c) : ∀ (j fuel : Nat) (m : Mem) (p : Nat), j < fuel →
    p + (j + 1) * c < 2 ^ 64 →
    carve fuel m p c (p + (j + 1) * c) p = some (linkMem m p c j, p + j * c) := by
  intro j
  induction j with
  | zero =>
    intro fuel m p hf _
    obtain ⟨f, rfl⟩ : ∃ f, fuel = f + 1 := ⟨fuel - 1, by omega⟩
    simp only [carve, linkMem]
    rw [if_neg (by omega)]
    simp
  | succ j ih =>
    intro fuel m p hf hb
    obtain ⟨f, rfl⟩ : ∃ f, fuel = f + 1 := ⟨fuel - 1, by omega⟩
    have hlt : p + c < p + (j + 1 + 1) * c := by
      have : (j + 1 + 1) * c = c + (j + 1) * c := by ring
      have : 0 < (j + 1) * c := Nat.mul_pos (by omega) hc
      omega
    have hval : loadLE (storeLE m p 8 (p + c)) p 8 = p + c := by
      rw [loadLE_storeLE_same]
      exact Nat.mod_eq_of_lt (by norm_num; omega)
    have hpe : p + (j + 1 + 1) * c = (p + c) + (j + 1) * c := by ring
    simp only [carve, linkMem]
    rw [if_pos hlt, hval, hpe, ih f _ (p + c) (by omega) (by omega)]
    congr 2
    ring

theorem linkMem_frame (c : Nat) (hc : 8 ≤ c) : ∀ (j : Nat) (m : Mem) (p x : Nat),
    (x < p ∨ p + j * c ≤ x) → linkMem m p c j x = m x := by
  intro j
  induction j with
  | zero => intro m p x _; rfl
  | succ j ih =>
    intro m p x hx
    have e : p + (j + 1) * c = p + c + j * c := by ring
    simp only [linkMem]
    rw [ih _ _ _ (by omega)]
    simp only [storeLE]
    rw [if_neg (by omega)]

theorem isList_linkMem (c : Nat) (hc : 8 ≤ c) : ∀ (j : Nat) (m : Mem) (p : Nat), p ≠ 0 →
    p + (j + 1) * c < 2 ^ 64 →
    IsList (storeLE (linkMem m p c j) (p + j * c) 8 0) p (chain p c (j + 1)) := by
  intro j
  induction j with
  | zero =>
    intro m p hp _
    show p = p ∧ p ≠ 0 ∧ loadLE (storeLE m (p + 0 * c) 8 0) p 8 = 0
    refine ⟨rfl, hp, ?_⟩
    rw [Nat.zero_mul, Nat.add_zero, loadLE_storeLE_same]
    rfl
  | succ j ih =>
    intro m p hp hb
    have e : p + (j + 1) * c = p + c + j * c := by ring
    have e2 : p + (j + 1 + 1) * c = p + c + (j + 1) * c := by ring
    have hjc : 0 ≤ j * c := Nat.zero_le _
    have hnext : loadLE (storeLE (linkMem (storeLE m p 8 (p + c)) (p + c) c j) (p + c + j * c) 8 0) p 8
        = p + c := by
      rw [loadLE_storeLE_other _ _ _ _ _ _ (by omega)]
      rw [loadLE_congr (storeLE m p 8 (p + c)) _ 8 p
        (fun x h1 h2 => linkMem_frame c hc j _ _ x (by omega))]
      rw [loadLE_storeLE_same]
      exact Nat.mod_eq_of_lt (by norm_num; omega)
    show IsList (storeLE (linkMem (storeLE m p 8 (p + c)) (p + c) c j) (p + (j + 1) * c) 8 0) p
      (p :: chain (p + c) c (j + 1))
    rw [e]
    refine ⟨rfl, hp, ?_⟩
    rw [hnext]
    exact ih _ (p + c) (by omega) (by omega)

theorem mem_chain (c : Nat) : ∀ (j p x : Nat), x ∈ chain p c j ↔ ∃ k, k < j ∧ x = p + k * c := by
  intro j
  induction j with
  | zero => intro p x; simp [chain]
  | succ j ih =>
    intro p x
    simp only [chain, List.mem_cons, ih]
    constructor
    · rintro (h | ⟨k, hk, h⟩)
      · exact ⟨0, by omega, by omega⟩
      · exact ⟨k + 1, by omega, by rw [h]; ring⟩
    · rintro ⟨k, hk, h⟩
      rcases k with _ | k
      · left; omega
      · right; exact ⟨k, by omega, by rw [h]; ring⟩

theorem chain_nodup (c : Nat) (hc : 0 < c) : ∀ (j p : Nat), (chain p c j).Nodup := by
  intro j
  induction j with
  | zero => intro p; simp [chain]
  | succ j ih =>
    intro p
    simp only [chain, List.nodup_cons]
    refine ⟨?_, ih _⟩
    rw [mem_chain]
    rintro ⟨k, _, h⟩
    have : 0 ≤ k * c := Nat.zero_le _
    omega



/-! ## Size classes and requests -/

theorem ROUND_UP_page (s : Nat) : ROUND_UP s PAGE_SIZE % PAGE_SIZE = 0 := by
  unfold ROUND_UP SIZE_MOD PAGE_SIZE
  norm_num
  split_ifs with h1 <;> omega

theorem class_geom (i : Nat) (hi : i < 8) :
    16 ≤ class_size i ∧ class_size i ≤ 2048 ∧
    class_size i + (PAGE_SIZE / class_size i - 2 + 1) * class_size i = PAGE_SIZE ∧
    2 ≤ PAGE_SIZE / class_size i ∧ PAGE_SIZE / class_size i ≤ 256 := by
  unfold PAGE_SIZE
  rcases class_size_cases i hi with h | h | h | h | h | h | h | h <;> rw [h] <;> norm_num

theorem class_size_inj (i j : Nat) (hi : i < 8) (hj : j < 8) (h : class_size i = class_size j) :
    i = j := by
  unfold class_size at h
  interval_cases i <;> interval_cases j <;> simp at h <;> rfl

theorem request_small (s : Nat) (h : s ≤ 2048) :
    request_index s < 8 ∧ round_to_pow_of_two s = some (class_size (request_index s)) ∧
    request_class s = class_size (request_index s) ∧ s ≤ class_size (request_index s) := by
  obtain ⟨i, hi, hr, hle, _⟩ := round_to_pow_of_two_small s h
  have e : request_index s = i := by
    unfold request_index
    rw [hr]
    simp [free_list_index_class i hi]
  have e2 : request_class s = class_size i := by
    unfold request_class
    rw [hr]
    rfl
  rw [e, e2]
  exact ⟨hi, hr, rfl, hle⟩

/-! ## Evaluating the three paths of `xxmalloc` -/

theorem xxmalloc_large_eq (st : State) (s a : Nat) (hs : 2048 < s)
    (hlen : ROUND_UP s PAGE_SIZE ≠ 0) :
    xxmalloc st s (some a) = Outcome.ok (a,
      { st with mem := zeroFill st.mem a (ROUND_UP s PAGE_SIZE),
                mapped := (a, ROUND_UP s PAGE_SIZE) :: st.mapped }) := by
  unfold xxmalloc mmap
  rw [if_pos hs, if_neg hlen]

theorem xxmalloc_reuse_eq (st : State) (s : Nat) (os : Option Nat) (hs : s ≤ 2048)
    (hne : st.free_lists (request_index s) ≠ 0)
    (hacc : accessible st.mapped (st.free_lists (request_index s)) 8 = true) :
    xxmalloc st s os = Outcome.ok (st.free_lists (request_index s),
      { st with free_lists := Function.update st.free_lists (request_index s)
                  (loadLE st.mem (st.free_lists (request_index s)) 8) }) := by
  obtain ⟨hi, hr, _, _⟩ := request_small s hs
  unfold xxmalloc
  rw [if_neg (by omega), hr]
  simp only [free_list_index_class _ hi]
  rw [if_pos hne, if_pos hacc]

theorem xxmalloc_fresh_aux (st : State) (s a i c : Nat) (hs : s ≤ 2048) (hi : i < 8)
    (hcd : class_size i = c) (hr : round_to_pow_of_two s = some c)
    (hnil : st.free_lists i = 0) (ha : a + PAGE_SIZE < 2 ^ 64) :
    xxmalloc st s (some a) = Outcome.ok (a + c,
      { free_lists := Function.update st.free_lists i (loadLE (slab_mem st.mem a c) (a + c) 8),
        mem := slab_mem st.mem a c,
        mapped := (a, PAGE_SIZE) :: st.mapped }) := by
  obtain ⟨h16, h2048, hsum, h2, h256⟩ := class_geom _ hi
  have hidx := free_list_index_class _ hi
  rw [hcd] at h16 h2048 hsum h2 h256 hidx
  have hpe : a + PAGE_SIZE = a + c + (PAGE_SIZE / c - 2 + 1) * c := by omega
  have hcarve := carve_eq c (by omega) (PAGE_SIZE / c - 2) PAGE_SIZE
    (storeLE (storeLE (zeroFill st.mem a PAGE_SIZE) a 4 MAGIC_NUM) (a + 8) 8 c) (a + c)
    (by unfold PAGE_SIZE at *; omega) (by omega)
  rw [← hpe] at hcarve
  unfold xxmalloc mmap
  rw [if_neg (by omega), hr]
  simp only [hidx]
  rw [if_neg (by rw [hnil]; simp), if_neg (by unfold PAGE_SIZE; omega)]
  simp only [hcarve]
  rfl

theorem xxmalloc_fresh_eq (st : State) (s a : Nat) (hs : s ≤ 2048)
    (hnil : st.free_lists (request_index s) = 0) (ha : a + PAGE_SIZE < 2 ^ 64) :
    xxmalloc st s (some a) = Outcome.ok (a + request_class s,
      { free_lists := Function.update st.free_lists (request_index s)
          (loadLE (slab_mem st.mem a (request_class s)) (a + request_class s) 8),
        mem := slab_mem st.mem a (request_class s),
        mapped := (a, PAGE_SIZE) :: st.mapped }) := by
  obtain ⟨hi, hr, hc, _⟩ := request_small s hs
  rw [hc]
  exact xxmalloc_fresh_aux st s a _ _ hs hi rfl hr hnil ha



/-! ## The memory of a freshly formatted page -/

theorem slab_mem_frame (m : Mem) (a i x : Nat) (hi : i < 8) (hx : x < a ∨ a + PAGE_SIZE ≤ x) :
    slab_mem m a (class_size i) x = m x := by
  obtain ⟨h16, h2048, hsum, h2, _⟩ := class_geom _ hi
  generalize class_size i = c at *
  have e : (PAGE_SIZE / c - 2 + 1) * c = (PAGE_SIZE / c - 2) * c + c := by ring
  unfold slab_mem
  simp only [storeLE]
  rw [if_neg (by omega), linkMem_frame c (by omega) _ _ _ _ (by omega)]
  simp only [storeLE, zeroFill]
  rw [if_neg (by omega), if_neg (by omega), if_neg (by omega)]

theorem slab_mem_header (m : Mem) (a i : Nat) (hi : i < 8) :
    loadLE (slab_mem m a (class_size i)) a 4 = MAGIC_NUM ∧
    loadLE (slab_mem m a (class_size i)) (a + 8) 8 = class_size i := by
  obtain ⟨h16, h2048, hsum, h2, _⟩ := class_geom _ hi
  generalize class_size i = c at *
  have hjc : 0 ≤ (PAGE_SIZE / c - 2) * c := Nat.zero_le _
  unfold slab_mem
  constructor
  · rw [loadLE_storeLE_other _ _ _ _ _ _ (by omega)]
    rw [loadLE_congr (storeLE (storeLE (zeroFill m a PAGE_SIZE) a 4 MAGIC_NUM) (a + 8) 8 c) _ 4 a
      (fun x h1 h2 => linkMem_frame c (by omega) _ _ _ x (by omega))]
    rw [loadLE_storeLE_other _ _ _ _ _ _ (by omega), loadLE_storeLE_same]
    rfl
  · rw [loadLE_storeLE_other _ _ _ _ _ _ (by omega)]
    rw [loadLE_congr (storeLE (storeLE (zeroFill m a PAGE_SIZE) a 4 MAGIC_NUM) (a + 8) 8 c) _ 8 (a + 8)
      (fun x h1 h2 => linkMem_frame c (by omega) _ _ _ x (by omega))]
    rw [loadLE_storeLE_same]
    exact Nat.mod_eq_of_lt (by norm_num; omega)

theorem slab_mem_list (m : Mem) (a i : Nat) (hi : i < 8) (ha : a + PAGE_SIZE ≤ 2 ^ 63) :
    IsList (slab_mem m a (class_size i)) (loadLE (slab_mem m a (class_size i)) (a + class_size i) 8)
      (chain (a + class_size i + class_size i) (class_size i) (PAGE_SIZE / class_size i - 2)) := by
  obtain ⟨h16, h2048, hsum, h2, _⟩ := class_geom _ hi
  generalize class_size i = c at *
  have h := isList_linkMem c (by omega) (PAGE_SIZE / c - 2)
    (storeLE (storeLE (zeroFill m a PAGE_SIZE) a 4 MAGIC_NUM) (a + 8) 8 c) (a + c) (by omega)
    (by omega)
  exact h.2.2



/-! ## Geometry of chunks -/

theorem chunk_arith (i b k : Nat) (hi : i < 8) (hb : b % PAGE_SIZE = 0) (hk1 : 1 ≤ k)
    (hk2 : k < PAGE_SIZE / class_size i) :
    b + class_size i ≤ b + k * class_size i ∧
    b + k * class_size i + class_size i ≤ b + PAGE_SIZE ∧
    (b + k * class_size i) % class_size i = 0 ∧
    (b + k * class_size i) - (b + k * class_size i) % PAGE_SIZE = b ∧
    16 ≤ class_size i := by
  unfold PAGE_SIZE at *
  rcases class_size_cases i hi with h | h | h | h | h | h | h | h <;> rw [h] at hk2 ⊢ <;>
    norm_num at hk2 ⊢ <;> omega

theorem isList_congr (m m1 : Mem) : ∀ (l : List Nat) (head : Nat),
    (∀ a ∈ l, ∀ x, a ≤ x → x < a + 8 → m1 x = m x) → IsList m head l → IsList m1 head l := by
  intro l
  induction l with
  | nil => intro head _ h; exact h
  | cons a l ih =>
    intro head hm h
    obtain ⟨h1, h2, h3⟩ := h
    refine ⟨h1, h2, ?_⟩
    rw [loadLE_congr m m1 8 a (fun x hx1 hx2 => hm a (List.mem_cons_self _ _) x hx1 hx2)]
    exact ih _ (fun b hb x hx1 hx2 => hm b (List.mem_cons_of_mem _ hb) x hx1 hx2) h3

theorem isList_zero (m : Mem) (l : List Nat) (h : IsList m 0 l) : l = [] := by
  cases l with
  | nil => rfl
  | cons a l => exact absurd h.1.symm h.2.1

theorem isList_ne_zero (m : Mem) (head : Nat) (l : List Nat) (h : IsList m head l) (hne : head ≠ 0) :
    ∃ t, l = head :: t ∧ IsList m (loadLE m head 8) t := by
  cases l with
  | nil => exact absurd h hne
  | cons a l =>
    obtain ⟨h1, _, h3⟩ := h
    subst h1
    exact ⟨l, rfl, h3⟩

theorem slab_unique {st : State} {g : Ghost} {fl : Nat → List Nat} (hinv : Inv st g fl)
    (b i j : Nat) (h1 : (b, i) ∈ g.slabs) (h2 : (b, j) ∈ g.slabs) : i = j := by
  have e1 := (hinv.slab_header b i h1).2
  have e2 := (hinv.slab_header b j h2).2
  exact class_size_inj i j (hinv.slab_page b i h1).1 (hinv.slab_page b j h2).1 (by rw [← e1, ← e2])

theorem slab_region {st : State} {g : Ghost} {fl : Nat → List Nat} (hinv : Inv st g fl)
    (b i : Nat) (h : (b, i) ∈ g.slabs) :
    i < 8 ∧ b ≠ 0 ∧ b % PAGE_SIZE = 0 ∧ b + PAGE_SIZE ≤ 2 ^ 63 := by
  obtain ⟨hi, hm⟩ := hinv.slab_page b i h
  obtain ⟨r1, r2, _, _, r5⟩ := hinv.regions _ hm
  exact ⟨hi, r1, r2, r5⟩

theorem slab_pages_disjoint {st : State} {g : Ghost} {fl : Nat → List Nat} (hinv : Inv st g fl)
    (b i b1 j : Nat) (h1 : (b, i) ∈ g.slabs) (h2 : (b1, j) ∈ g.slabs) (hne : b ≠ b1) :
    b + PAGE_SIZE ≤ b1 ∨ b1 + PAGE_SIZE ≤ b :=
  hinv.disjoint _ (hinv.slab_page b i h1).2 _ (hinv.slab_page b1 j h2).2
    (fun e => hne (congrArg Prod.fst e))

/-- The facts about a chunk that follow from the invariant. -/
theorem chunk_facts {st : State} {g : Ghost} {fl : Nat → List Nat} (hinv : Inv st g fl)
    (i a : Nat) (h : IsChunk g.slabs i a) :
    ∃ b, (b, i) ∈ g.slabs ∧ i < 8 ∧ b ≠ 0 ∧ b % PAGE_SIZE = 0 ∧ b + PAGE_SIZE ≤ 2 ^ 63 ∧
      b + class_size i ≤ a ∧ a + class_size i ≤ b + PAGE_SIZE ∧ a % class_size i = 0 ∧
      a - a % PAGE_SIZE = b ∧ 16 ≤ class_size i := by
  obtain ⟨b, k, hb, hk1, hk2, rfl⟩ := h
  obtain ⟨hi, h0, hal, hlt⟩ := slab_region hinv b i hb
  obtain ⟨c1, c2, c3, c4, c5⟩ := chunk_arith i b k hi hal hk1 hk2
  exact ⟨b, hb, hi, h0, hal, hlt, c1, c2, c3, c4, c5⟩

/-- Two different chunks occupy disjoint byte ranges. -/
theorem chunks_disjoint {st : State} {g : Ghost} {fl : Nat → List Nat} (hinv : Inv st g fl)
    (i a j a1 : Nat) (h : IsChunk g.slabs i a) (h1 : IsChunk g.slabs j a1) (hne : a ≠ a1) :
    a + class_size i ≤ a1 ∨ a1 + class_size j ≤ a := by
  obtain ⟨b, k, hb, hk1, hk2, rfl⟩ := h
  obtain ⟨b1, k1, hb1, hk11, hk12, rfl⟩ := h1
  obtain ⟨hi, _, hal, _⟩ := slab_region hinv b i hb
  obtain ⟨hj, _, hal1, _⟩ := slab_region hinv b1 j hb1
  obtain ⟨c1, c2, _, _, _⟩ := chunk_arith i b k hi hal hk1 hk2
  obtain ⟨d1, d2, _, _, _⟩ := chunk_arith j b1 k1 hj hal1 hk11 hk12
  by_cases hbb : b = b1
  · subst hbb
    have hij := slab_unique hinv b i j hb hb1
    subst hij
    have hk : k ≠ k1 := fun e => hne (by rw [e])
    rcases Nat.lt_or_gt_of_ne hk with hlt | hlt
    · left
      have : (k + 1) * class_size i ≤ k1 * class_size i := Nat.mul_le_mul_right _ hlt
      have e : (k + 1) * class_size i = k * class_size i + class_size i := by ring
      omega
    · right
      have : (k1 + 1) * class_size i ≤ k * class_size i := Nat.mul_le_mul_right _ hlt
      have e : (k1 + 1) * class_size i = k1 * class_size i + class_size i := by ring
      omega
  · have := slab_pages_disjoint hinv b i b1 j hb hb1 hbb
    omega

/-- A chunk that lies on a free list or is live belongs to one class only. -/
theorem chunk_index_unique {st : State} {g : Ghost} {fl : Nat → List Nat} (hinv : Inv st g fl)
    (i j a : Nat) (h : IsChunk g.slabs i a) (h1 : IsChunk g.slabs j a) : i = j := by
  obtain ⟨b, hb, _, _, _, _, _, _, _, e, _⟩ := chunk_facts hinv i a h
  obtain ⟨b1, hb1, _, _, _, _, _, _, _, e1, _⟩ := chunk_facts hinv j a h1
  have : b = b1 := by rw [← e, ← e1]
  subst this
  exact slab_unique hinv b i j hb hb1



/-! ## Frame lemmas for the invariant -/

theorem inv_mem_frame {st : State} {g : Ghost} {fl : Nat → List Nat} (hinv : Inv st g fl)
    (m1 : Mem)
    (hh : ∀ b i, (b, i) ∈ g.slabs → ∀ x, b ≤ x → x < b + 16 → m1 x = st.mem x)
    (hn : ∀ i, i < 8 → ∀ a ∈ fl i, ∀ x, a ≤ x → x < a + 8 → m1 x = st.mem x) :
    Inv { st with mem := m1 } g fl where
  regions := hinv.regions
  disjoint := hinv.disjoint
  slab_page := hinv.slab_page
  slab_header := by
    intro b i hb
    obtain ⟨e1, e2⟩ := hinv.slab_header b i hb
    constructor
    · rw [← e1]
      exact loadLE_congr _ _ 4 b (fun x h1 h2 => hh b i hb x h1 (by omega))
    · rw [← e2]
      exact loadLE_congr _ _ 8 (b + 8) (fun x h1 h2 => hh b i hb x (by omega) (by omega))
  lists := fun i hi => isList_congr st.mem m1 (fl i) _ (hn i hi) (hinv.lists i hi)
  lists_nodup := hinv.lists_nodup
  free_chunk := hinv.free_chunk
  live_small := hinv.live_small
  live_large := hinv.live_large
  live_nodup := hinv.live_nodup
  free_not_live := hinv.free_not_live
  complete := hinv.complete

/-- Changing memory only inside `[lo, hi)` keeps the invariant when the range
misses every page header and every free-list node. -/
theorem inv_region_frame {st : State} {g : Ghost} {fl : Nat → List Nat} (hinv : Inv st g fl)
    (m1 : Mem) (lo hi : Nat)
    (hout : ∀ x, x < lo ∨ hi ≤ x → m1 x = st.mem x)
    (hh : ∀ b i, (b, i) ∈ g.slabs → b + 16 ≤ lo ∨ hi ≤ b)
    (hn : ∀ i, i < 8 → ∀ a ∈ fl i, a + 8 ≤ lo ∨ hi ≤ a) :
    Inv { st with mem := m1 } g fl :=
  inv_mem_frame hinv m1
    (fun b i hb x h1 h2 => hout x (by have := hh b i hb; omega))
    (fun i hi a ha x h1 h2 => hout x (by have := hn i hi a ha; omega))

theorem untouched_small {st : State} {g : Ghost} {fl : Nat → List Nat} (hinv : Inv st g fl)
    (p s : Nat) (hl : (p, s) ∈ g.live) (hs : s ≤ 2048) :
    (∀ b i, (b, i) ∈ g.slabs → b + 16 ≤ p ∨ p + class_size (request_index s) ≤ b) ∧
    (∀ i, i < 8 → ∀ a ∈ fl i, a + 8 ≤ p ∨ p + class_size (request_index s) ≤ a) := by
  have hch := hinv.live_small p s hl hs
  obtain ⟨b0, hb0, _, _, _, _, f1, f2, _, _, f5⟩ := chunk_facts hinv _ p hch
  constructor
  · intro b i hb
    by_cases e : b = b0
    · left; omega
    · have := slab_pages_disjoint hinv b i b0 _ hb hb0 e
      omega
  · intro i hi a ha
    have hca := hinv.free_chunk i hi a ha
    have hne : a ≠ p := fun e => hinv.free_not_live i hi a ha s (by rw [e]; exact hl)
    obtain ⟨_, _, _, _, _, _, _, _, _, _, f5a⟩ := chunk_facts hinv i a hca
    have := chunks_disjoint hinv i a _ p hca hch hne
    omega

/-- A byte range that misses every formatted page misses all headers and nodes. -/
theorem untouched_of_off_slabs {st : State} {g : Ghost} {fl : Nat → List Nat} (hinv : Inv st g fl)
    (lo hi : Nat) (h : ∀ b i, (b, i) ∈ g.slabs → hi ≤ b ∨ b + PAGE_SIZE ≤ lo) :
    (∀ b i, (b, i) ∈ g.slabs → b + 16 ≤ lo ∨ hi ≤ b) ∧
    (∀ i, i < 8 → ∀ a ∈ fl i, a + 8 ≤ lo ∨ hi ≤ a) := by
  constructor
  · intro b i hb
    have := h b i hb
    unfold PAGE_SIZE at this
    omega
  · intro i hi a ha
    obtain ⟨b, hb, _, _, _, _, f1, f2, _, _, f5⟩ := chunk_facts hinv i a (hinv.free_chunk i hi a ha)
    have := h b i hb
    omega

theorem large_off_slabs {st : State} {g : Ghost} {fl : Nat → List Nat} (hinv : Inv st g fl)
    (p s : Nat) (hl : (p, s) ∈ g.live) (hs : 2048 < s) :
    ∀ b i, (b, i) ∈ g.slabs → p + ROUND_UP s PAGE_SIZE ≤ b ∨ b + PAGE_SIZE ≤ p := by
  intro b i hb
  obtain ⟨hm, hns⟩ := hinv.live_large p s hl hs
  have hne : (p, ROUND_UP s PAGE_SIZE) ≠ (b, PAGE_SIZE) := by
    intro e
    have : p = b := congrArg Prod.fst e
    subst this
    exact hns i hb
  exact hinv.disjoint _ hm _ (hinv.slab_page b i hb).2 hne

theorem fresh_off_slabs {st : State} {g : Ghost} {fl : Nat → List Nat} (hinv : Inv st g fl)
    (a len : Nat) (hf : FreshMapping st a len) :
    ∀ b i, (b, i) ∈ g.slabs → a + len ≤ b ∨ b + PAGE_SIZE ≤ a := by
  intro b i hb
  exact hf.2.2.2 _ (hinv.slab_page b i hb).2

/-! ## The size query inside a formatted page -/

theorem usable_size_in_slab {st : State} {g : Ghost} {fl : Nat → List Nat} (hinv : Inv st g fl)
    (b i ptr : Nat) (hb : (b, i) ∈ g.slabs) (h1 : b ≤ ptr) (h2 : ptr < b + PAGE_SIZE) :
    xxmalloc_usable_size st ptr = Outcome.ok (class_size i) := by
  obtain ⟨hi, h0, hal, hlt⟩ := slab_region hinv b i hb
  obtain ⟨e1, e2⟩ := hinv.slab_header b i hb
  have hm := (hinv.slab_page b i hb).2
  have hps : page_start_of ptr = b := by
    rw [page_start_of_eq ptr (by omega)]
    unfold PAGE_SIZE at *
    omega
  unfold xxmalloc_usable_size
  rw [if_neg (by omega)]
  simp only [hps]
  rw [if_pos (accessible_of_mem _ b PAGE_SIZE b 4 hm (le_refl _) (by unfold PAGE_SIZE; omega)),
    if_neg (by rw [e1]; simp),
    if_pos (accessible_of_mem _ b PAGE_SIZE (b + 8) 8 hm (by omega) (by unfold PAGE_SIZE; omega)),
    e2]



/-! ## Preservation: caller writes and `xxfree` -/

theorem inv_write {st : State} {g : Ghost} {fl : Nat → List Nat} (hinv : Inv st g fl)
    (p s a b : Nat) (hl : (p, s) ∈ g.live) (h1 : p ≤ a) (h2 : a < p + extent s) :
    Inv { st with mem := Function.update st.mem a b } g fl := by
  have hupd : ∀ x, x ≠ a → Function.update st.mem a b x = st.mem x :=
    fun x hx => Function.update_noteq hx _ _
  by_cases hs : s ≤ 2048
  · have he : extent s = class_size (request_index s) := by
      unfold extent
      rw [if_neg (by omega)]
      exact (request_small s hs).2.2.1
    rw [he] at h2
    obtain ⟨u1, u2⟩ := untouched_small hinv p s hl hs
    exact inv_region_frame hinv _ p (p + class_size (request_index s))
      (fun x hx => hupd x (by omega)) u1 u2
  · have he : extent s = ROUND_UP s PAGE_SIZE := by
      unfold extent
      rw [if_pos (by omega)]
    rw [he] at h2
    obtain ⟨u1, u2⟩ := untouched_of_off_slabs hinv p (p + ROUND_UP s PAGE_SIZE)
      (large_off_slabs hinv p s hl (by omega))
    exact inv_region_frame hinv _ p (p + ROUND_UP s PAGE_SIZE)
      (fun x hx => hupd x (by omega)) u1 u2

theorem head_lt {st : State} {g : Ghost} {fl : Nat → List Nat} (hinv : Inv st g fl)
    (i : Nat) (hi : i < 8) : st.free_lists i < 2 ^ 63 := by
  by_cases h0 : st.free_lists i = 0
  · rw [h0]; norm_num
  · obtain ⟨t, ht, _⟩ := isList_ne_zero _ _ _ (hinv.lists i hi) h0
    have hmem : st.free_lists i ∈ fl i := by rw [ht]; exact List.mem_cons_self _ _
    obtain ⟨b, _, _, _, _, f0, f1, f2, _, _, f5⟩ :=
      chunk_facts hinv i _ (hinv.free_chunk i hi _ hmem)
    omega

theorem fst_unique (l : List (Nat × Nat)) (hn : (l.map Prod.fst).Nodup) (p s s1 : Nat)
    (h : (p, s) ∈ l) (h1 : (p, s1) ∈ l) : s = s1 := by
  have := List.inj_on_of_nodup_map hn h h1 rfl
  exact congrArg Prod.snd this

theorem not_mem_erase_self (l : List (Nat × Nat)) (hn : (l.map Prod.fst).Nodup) (p s s1 : Nat)
    (h : (p, s) ∈ l) : (p, s1) ∉ l.erase (p, s) := by
  intro hmem
  have hl : l.Nodup := List.Nodup.of_map _ hn
  have h1 := List.mem_of_mem_erase hmem
  have e := fst_unique l hn p s s1 h h1
  subst e
  exact (hl.mem_erase_iff.mp hmem).1 rfl

theorem xxfree_small_eq {st : State} {g : Ghost} {fl : Nat → List Nat} (hinv : Inv st g fl)
    (p s : Nat) (hl : (p, s) ∈ g.live) (hs : s ≤ 2048) :
    xxfree st p = Outcome.ok
      { st with mem := storeLE st.mem p 8 (st.free_lists (request_index s)),
                free_lists := Function.update st.free_lists (request_index s) p } := by
  have hch := hinv.live_small p s hl hs
  obtain ⟨b, hb, hi, hb0, hal, hlt, f1, f2, f3, f4, f5⟩ := chunk_facts hinv _ p hch
  have hu := usable_size_in_slab hinv b _ p hb (by omega) (by omega)
  have hm := (hinv.slab_page b _ hb).2
  unfold xxfree
  rw [if_neg (by omega), hu]
  simp only [free_list_index_class _ hi]
  rw [if_neg (by omega), f3]
  simp only [Nat.sub_zero]
  rw [if_pos (accessible_of_mem _ b PAGE_SIZE p 8 hm (by omega) (by omega))]

theorem inv_free_small {st : State} {g : Ghost} {fl : Nat → List Nat} (hinv : Inv st g fl)
    (p s : Nat) (hl : (p, s) ∈ g.live) (hs : s ≤ 2048) :
    Inv { st with mem := storeLE st.mem p 8 (st.free_lists (request_index s)),
                  free_lists := Function.update st.free_lists (request_index s) p }
      ⟨g.live.erase (p, s), g.slabs⟩
      (Function.update fl (request_index s) (p :: fl (request_index s))) := by
  have hch := hinv.live_small p s hl hs
  obtain ⟨b, hb, hi, hb0, hal, hlt, f1, f2, f3, f4, f5⟩ := chunk_facts hinv _ p hch
  obtain ⟨u1, u2⟩ := untouched_small hinv p s hl hs
  have hmid := inv_region_frame hinv (storeLE st.mem p 8 (st.free_lists (request_index s)))
    p (p + 8) (fun x hx => by simp only [storeLE]; rw [if_neg (by omega)])
    (fun b i hb => by have := u1 b i hb; omega)
    (fun i hi a ha => by have := u2 i hi a ha; omega)
  have hhead := head_lt hinv _ hi
  generalize request_index s = i at *
  exact
  { regions := hmid.regions
    disjoint := hmid.disjoint
    slab_page := hmid.slab_page
    slab_header := hmid.slab_header
    lists := by
      intro j hj
      by_cases e : j = i
      · subst e
        simp only [Function.update_same]
        refine ⟨rfl, by omega, ?_⟩
        have : loadLE (storeLE st.mem p 8 (st.free_lists j)) p 8 = st.free_lists j := by
          rw [loadLE_storeLE_same]
          exact Nat.mod_eq_of_lt (by norm_num; omega)
        show IsList _ (loadLE (storeLE st.mem p 8 (st.free_lists j)) p 8) (fl j)
        rw [this]
        exact hmid.lists j hj
      · simp only [Function.update_noteq e]
        exact hmid.lists j hj
    lists_nodup := by
      intro j hj
      by_cases e : j = i
      · subst e
        simp only [Function.update_same]
        exact List.nodup_cons.mpr ⟨fun hm => hinv.free_not_live j hj p hm s hl, hinv.lists_nodup j hj⟩
      · simp only [Function.update_noteq e]
        exact hinv.lists_nodup j hj
    free_chunk := by
      intro j hj a ha
      by_cases e : j = i
      · subst e
        simp only [Function.update_same, List.mem_cons] at ha
        rcases ha with rfl | ha
        · exact hch
        · exact hinv.free_chunk j hj a ha
      · simp only [Function.update_noteq e] at ha
        exact hinv.free_chunk j hj a ha
    live_small := fun q t hq ht => hinv.live_small q t (List.mem_of_mem_erase hq) ht
    live_large := fun q t hq ht => hinv.live_large q t (List.mem_of_mem_erase hq) ht
    live_nodup := List.Nodup.sublist ((List.erase_sublist _ _).map _) hinv.live_nodup
    free_not_live := by
      intro j hj a ha t
      by_cases e : j = i
      · subst e
        simp only [Function.update_same, List.mem_cons] at ha
        rcases ha with rfl | ha
        · exact not_mem_erase_self _ hinv.live_nodup a s t hl
        · exact fun hm => hinv.free_not_live j hj a ha t (List.mem_of_mem_erase hm)
      · simp only [Function.update_noteq e] at ha
        exact fun hm => hinv.free_not_live j hj a ha t (List.mem_of_mem_erase hm)
    complete := by
      intro b1 i1 hb1 k hk1 hk2
      have hi1 := (hinv.slab_page b1 i1 hb1).1
      rcases hinv.complete b1 i1 hb1 k hk1 hk2 with h | ⟨t, ht, hlive⟩
      · left
        by_cases e : i1 = i
        · subst e
          simp only [Function.update_same]
          exact List.mem_cons_of_mem _ h
        · simp only [Function.update_noteq e]
          exact h
      · by_cases e : (b1 + k * class_size i1, t) = (p, s)
        · left
          have ep : b1 + k * class_size i1 = p := congrArg Prod.fst e
          have hc1 : IsChunk g.slabs i1 p := ⟨b1, k, hb1, hk1, hk2, ep.symm⟩
          have := chunk_index_unique hinv i1 i p hc1 hch
          subst this
          rw [ep]
          simp only [Function.update_same]
          exact List.mem_cons_self _ _
        · right
          exact ⟨t, ht, (List.mem_erase_of_ne e).mpr hlive⟩ }

theorem xxfree_large_eq {st : State} {g : Ghost} {fl : Nat → List Nat} (hinv : Inv st g fl)
    (p s : Nat) (hl : (p, s) ∈ g.live) (hs : 2048 < s) (hmagic : loadLE st.mem p 4 ≠ MAGIC_NUM) :
    xxmalloc_usable_size st p = Outcome.ok 0 ∧ xxfree st p = Outcome.ok st := by
  obtain ⟨hm, _⟩ := hinv.live_large p s hl hs
  obtain ⟨r1, r2, r3, r4, r5⟩ := hinv.regions _ hm
  simp only at r1 r2 r3 r4 r5
  have hps : page_start_of p = p := by
    rw [page_start_of_eq p (by omega), r2]
    rfl
  have hlen : 4 ≤ ROUND_UP s PAGE_SIZE := by
    revert r3 r4
    generalize ROUND_UP s PAGE_SIZE = len
    intro r3 r4
    unfold PAGE_SIZE at r3
    omega
  have hu : xxmalloc_usable_size st p = Outcome.ok 0 := by
    unfold xxmalloc_usable_size
    rw [if_neg r1]
    simp only [hps]
    rw [if_pos (accessible_of_mem _ p _ p 4 hm (le_refl _) (by omega)),
      if_pos hmagic]
  refine ⟨hu, ?_⟩
  unfold xxfree
  rw [if_neg r1, hu]
  rfl

theorem inv_free_large {st : State} {g : Ghost} {fl : Nat → List Nat} (hinv : Inv st g fl)
    (p s : Nat) (hs : 2048 < s) :
    Inv st ⟨g.live.erase (p, s), g.slabs⟩ fl where
  regions := hinv.regions
  disjoint := hinv.disjoint
  slab_page := hinv.slab_page
  slab_header := hinv.slab_header
  lists := hinv.lists
  lists_nodup := hinv.lists_nodup
  free_chunk := hinv.free_chunk
  live_small := fun q t hq ht => hinv.live_small q t (List.mem_of_mem_erase hq) ht
  live_large := fun q t hq ht => hinv.live_large q t (List.mem_of_mem_erase hq) ht
  live_nodup := List.Nodup.sublist ((List.erase_sublist _ _).map _) hinv.live_nodup
  free_not_live := fun j hj a ha t hm => hinv.free_not_live j hj a ha t (List.mem_of_mem_erase hm)
  complete := by
    intro b1 i1 hb1 k hk1 hk2
    rcases hinv.complete b1 i1 hb1 k hk1 hk2 with h | ⟨t, ht, hlive⟩
    · exact Or.inl h
    · right
      refine ⟨t, ht, (List.mem_erase_of_ne ?_).mpr hlive⟩
      intro e
      have : t = s := congrArg Prod.snd e
      omega



/-! ## Preservation: `xxmalloc` on the large path and on the reuse path -/

theorem live_in_mapped {st : State} {g : Ghost} {fl : Nat → List Nat} (hinv : Inv st g fl)
    (p s : Nat) (hl : (p, s) ∈ g.live) : ∃ r ∈ st.mapped, r.1 ≤ p ∧ p < r.1 + r.2 := by
  by_cases hs : s ≤ 2048
  · obtain ⟨b, hb, _, _, _, _, f1, f2, _, _, f5⟩ := chunk_facts hinv _ p (hinv.live_small p s hl hs)
    exact ⟨(b, PAGE_SIZE), (hinv.slab_page b _ hb).2, by simp only; omega, by simp only; omega⟩
  · obtain ⟨hm, _⟩ := hinv.live_large p s hl (by omega)
    obtain ⟨_, _, _, r4, _⟩ := hinv.regions _ hm
    exact ⟨_, hm, le_refl _, by simp only at r4 ⊢; omega⟩

theorem free_in_mapped {st : State} {g : Ghost} {fl : Nat → List Nat} (hinv : Inv st g fl)
    (i a : Nat) (hi : i < 8) (ha : a ∈ fl i) : ∃ r ∈ st.mapped, r.1 ≤ a ∧ a < r.1 + r.2 := by
  obtain ⟨b, hb, _, _, _, _, f1, f2, _, _, f5⟩ := chunk_facts hinv _ a (hinv.free_chunk i hi a ha)
  exact ⟨(b, PAGE_SIZE), (hinv.slab_page b _ hb).2, by simp only; omega, by simp only; omega⟩

/-- Recording a fresh mapping keeps the invariant. -/
theorem inv_add_mapping {st : State} {g : Ghost} {fl : Nat → List Nat} (hinv : Inv st g fl)
    (a len : Nat) (hf : FreshMapping st a len) (hlen : len % PAGE_SIZE = 0) (hpos : 0 < len) :
    Inv { st with mapped := (a, len) :: st.mapped } g fl where
  regions := by
    intro r hr
    rcases List.mem_cons.mp hr with rfl | hr
    · exact ⟨hf.1, hf.2.1, hlen, hpos, hf.2.2.1⟩
    · exact hinv.regions r hr
  disjoint := by
    intro r hr q hq hne
    rcases List.mem_cons.mp hr with rfl | hr <;> rcases List.mem_cons.mp hq with rfl | hq
    · exact absurd rfl hne
    · exact hf.2.2.2 q hq
    · exact (hf.2.2.2 r hr).symm
    · exact hinv.disjoint r hr q hq hne
  slab_page := fun b i hb => ⟨(hinv.slab_page b i hb).1, List.mem_cons_of_mem _ (hinv.slab_page b i hb).2⟩
  slab_header := hinv.slab_header
  lists := hinv.lists
  lists_nodup := hinv.lists_nodup
  free_chunk := hinv.free_chunk
  live_small := hinv.live_small
  live_large := fun p s hl hs =>
    ⟨List.mem_cons_of_mem _ (hinv.live_large p s hl hs).1, (hinv.live_large p s hl hs).2⟩
  live_nodup := hinv.live_nodup
  free_not_live := hinv.free_not_live
  complete := hinv.complete

theorem inv_malloc_large {st : State} {g : Ghost} {fl : Nat → List Nat} (hinv : Inv st g fl)
    (s a : Nat) (hs : 2048 < s) (hf : FreshMapping st a (ROUND_UP s PAGE_SIZE))
    (hlen : ROUND_UP s PAGE_SIZE ≠ 0) :
    Inv { st with mem := zeroFill st.mem a (ROUND_UP s PAGE_SIZE),
                  mapped := (a, ROUND_UP s PAGE_SIZE) :: st.mapped }
      ⟨(a, s) :: g.live, g.slabs⟩ fl := by
  have hoff := fresh_off_slabs hinv a _ hf
  obtain ⟨u1, u2⟩ := untouched_of_off_slabs hinv a (a + ROUND_UP s PAGE_SIZE) hoff
  have hmid := inv_region_frame hinv (zeroFill st.mem a (ROUND_UP s PAGE_SIZE))
    a (a + ROUND_UP s PAGE_SIZE) (fun x hx => by simp only [zeroFill]; rw [if_neg (by omega)]) u1 u2
  have hf1 : FreshMapping { st with mem := zeroFill st.mem a (ROUND_UP s PAGE_SIZE) } a
      (ROUND_UP s PAGE_SIZE) := hf
  have hadd := inv_add_mapping hmid a _ hf1 (ROUND_UP_page s) (Nat.pos_of_ne_zero hlen)
  have hfresh : ∀ r ∈ st.mapped, ¬ (r.1 ≤ a ∧ a < r.1 + r.2) := by
    intro r hr
    have := hf.2.2.2 r hr
    omega
  exact
  { regions := hadd.regions
    disjoint := hadd.disjoint
    slab_page := hadd.slab_page
    slab_header := hadd.slab_header
    lists := hadd.lists
    lists_nodup := hadd.lists_nodup
    free_chunk := hadd.free_chunk
    live_small := by
      intro p t hl ht
      rcases List.mem_cons.mp hl with e | hl
      · have : t = s := congrArg Prod.snd e
        omega
      · exact hinv.live_small p t hl ht
    live_large := by
      intro p t hl ht
      rcases List.mem_cons.mp hl with e | hl
      · have e1 : p = a := congrArg Prod.fst e
        have e2 : t = s := congrArg Prod.snd e
        subst e1 e2
        refine ⟨List.mem_cons_self _ _, fun i hi => ?_⟩
        exact hfresh _ (hinv.slab_page p i hi).2 ⟨le_refl _, by unfold PAGE_SIZE; simp only; omega⟩
      · exact hadd.live_large p t hl ht
    live_nodup := by
      show (a :: g.live.map Prod.fst).Nodup
      refine List.nodup_cons.mpr ⟨fun hm => ?_, hinv.live_nodup⟩
      obtain ⟨⟨p, t⟩, hpt, e⟩ := List.mem_map.mp hm
      simp only at e
      subst e
      obtain ⟨r, hr, h1, h2⟩ := live_in_mapped hinv p t hpt
      exact hfresh r hr ⟨h1, h2⟩
    free_not_live := by
      intro i hi x hx t hm
      rcases List.mem_cons.mp hm with e | hm
      · have e1 : x = a := congrArg Prod.fst e
        subst e1
        obtain ⟨r, hr, h1, h2⟩ := free_in_mapped hinv i x hi hx
        exact hfresh r hr ⟨h1, h2⟩
      · exact hinv.free_not_live i hi x hx t hm
    complete := by
      intro b i hb k hk1 hk2
      rcases hinv.complete b i hb k hk1 hk2 with h | ⟨t, ht, hl⟩
      · exact Or.inl h
      · exact Or.inr ⟨t, ht, List.mem_cons_of_mem _ hl⟩ }

theorem reuse_accessible {st : State} {g : Ghost} {fl : Nat → List Nat} (hinv : Inv st g fl)
    (i : Nat) (hi : i < 8) (hne : st.free_lists i ≠ 0) :
    accessible st.mapped (st.free_lists i) 8 = true ∧
    ∃ t, fl i = st.free_lists i :: t ∧ IsList st.mem (loadLE st.mem (st.free_lists i) 8) t := by
  obtain ⟨t, ht, hl⟩ := isList_ne_zero _ _ _ (hinv.lists i hi) hne
  have hmem : st.free_lists i ∈ fl i := by rw [ht]; exact List.mem_cons_self _ _
  obtain ⟨b, hb, _, _, _, _, f1, f2, _, _, f5⟩ := chunk_facts hinv i _ (hinv.free_chunk i hi _ hmem)
  exact ⟨accessible_of_mem _ b PAGE_SIZE _ 8 (hinv.slab_page b i hb).2 (by omega) (by omega), t, ht, hl⟩

theorem inv_malloc_reuse {st : State} {g : Ghost} {fl : Nat → List Nat} (hinv : Inv st g fl)
    (s : Nat) (hs : s ≤ 2048) (hne : st.free_lists (request_index s) ≠ 0) :
    Inv { st with free_lists := Function.update st.free_lists (request_index s)
                    (loadLE st.mem (st.free_lists (request_index s)) 8) }
      ⟨(st.free_lists (request_index s), s) :: g.live, g.slabs⟩
      (Function.update fl (request_index s) (fl (request_index s)).tail) := by
  obtain ⟨hi, _, _, _⟩ := request_small s hs
  obtain ⟨_, t, ht, hlt⟩ := reuse_accessible hinv _ hi hne
  generalize hh : st.free_lists (request_index s) = h at *
  generalize hrs : request_index s = i at *
  have hmem : h ∈ fl i := by rw [ht]; exact List.mem_cons_self _ _
  have hnd := hinv.lists_nodup i hi
  rw [ht] at hnd
  have hch := hinv.free_chunk i hi h hmem
  have htail : (fl i).tail = t := by rw [ht]; rfl
  rw [htail]
  exact
  { regions := hinv.regions
    disjoint := hinv.disjoint
    slab_page := hinv.slab_page
    slab_header := hinv.slab_header
    lists := by
      intro j hj
      by_cases e : j = i
      · subst e
        simp only [Function.update_same]
        exact hlt
      · simp only [Function.update_noteq e]
        exact hinv.lists j hj
    lists_nodup := by
      intro j hj
      by_cases e : j = i
      · subst e
        simp only [Function.update_same]
        exact (List.nodup_cons.mp hnd).2
      · simp only [Function.update_noteq e]
        exact hinv.lists_nodup j hj
    free_chunk := by
      intro j hj a ha
      by_cases e : j = i
      · subst e
        simp only [Function.update_same] at ha
        exact hinv.free_chunk j hj a (by rw [ht]; exact List.mem_cons_of_mem _ ha)
      · simp only [Function.update_noteq e] at ha
        exact hinv.free_chunk j hj a ha
    live_small := by
      intro p u hl hu
      rcases List.mem_cons.mp hl with e | hl
      · have e1 : p = h := congrArg Prod.fst e
        have e2 : u = s := congrArg Prod.snd e
        subst e1 e2
        rw [hrs]
        exact hch
      · exact hinv.live_small p u hl hu
    live_large := by
      intro p u hl hu
      rcases List.mem_cons.mp hl with e | hl
      · have e2 : u = s := congrArg Prod.snd e
        omega
      · exact hinv.live_large p u hl hu
    live_nodup := by
      show (h :: g.live.map Prod.fst).Nodup
      refine List.nodup_cons.mpr ⟨fun hm => ?_, hinv.live_nodup⟩
      obtain ⟨⟨p, u⟩, hpu, e⟩ := List.mem_map.mp hm
      simp only at e
      subst e
      exact hinv.free_not_live i hi p hmem u hpu
    free_not_live := by
      intro j hj a ha u hm
      by_cases e : j = i
      · subst e
        simp only [Function.update_same] at ha
        rcases List.mem_cons.mp hm with e1 | hm
        · have : a = h := congrArg Prod.fst e1
          subst this
          exact (List.nodup_cons.mp hnd).1 ha
        · exact hinv.free_not_live j hj a (by rw [ht]; exact List.mem_cons_of_mem _ ha) u hm
      · simp only [Function.update_noteq e] at ha
        rcases List.mem_cons.mp hm with e1 | hm
        · have : a = h := congrArg Prod.fst e1
          subst this
          exact e (chunk_index_unique hinv j i a (hinv.free_chunk j hj a ha) hch)
        · exact hinv.free_not_live j hj a ha u hm
    complete := by
      intro b i1 hb k hk1 hk2
      rcases hinv.complete b i1 hb k hk1 hk2 with hfr | ⟨u, hu, hl⟩
      · by_cases e : i1 = i
        · subst e
          rw [ht] at hfr
          rcases List.mem_cons.mp hfr with e1 | hfr
          · right
            exact ⟨s, hs, by rw [e1]; exact List.mem_cons_self _ _⟩
          · left
            simp only [Function.update_same]
            exact hfr
        · left
          simp only [Function.update_noteq e]
          exact hfr
      · exact Or.inr ⟨u, hu, List.mem_cons_of_mem _ hl⟩ }



/-! ## Preservation: `xxmalloc` formatting a fresh page -/

theorem isChunk_mono (slabs : List (Nat × Nat)) (e : Nat × Nat) (i a : Nat)
    (h : IsChunk slabs i a) : IsChunk (e :: slabs) i a := by
  obtain ⟨b, k, hb, hk⟩ := h
  exact ⟨b, k, List.mem_cons_of_mem _ hb, hk⟩

theorem inv_malloc_fresh {st : State} {g : Ghost} {fl : Nat → List Nat} (hinv : Inv st g fl)
    (s a i : Nat) (hs : s ≤ 2048) (hidx : request_index s = i)
    (hnil : st.free_lists i = 0) (hf : FreshMapping st a PAGE_SIZE) :
    Inv { free_lists := Function.update st.free_lists i
            (loadLE (slab_mem st.mem a (class_size i)) (a + class_size i) 8),
          mem := slab_mem st.mem a (class_size i),
          mapped := (a, PAGE_SIZE) :: st.mapped }
      ⟨(a + class_size i, s) :: g.live, (a, i) :: g.slabs⟩
      (Function.update fl i
        (chain (a + class_size i + class_size i) (class_size i) (PAGE_SIZE / class_size i - 2))) := by
  have hi : i < 8 := by rw [← hidx]; exact (request_small s hs).1
  obtain ⟨h16, h2048, hsum, h2, h256⟩ := class_geom i hi
  have hoff := fresh_off_slabs hinv a _ hf
  obtain ⟨u1, u2⟩ := untouched_of_off_slabs hinv a (a + PAGE_SIZE) hoff
  have hmid := inv_region_frame hinv (slab_mem st.mem a (class_size i)) a (a + PAGE_SIZE)
    (fun x hx => slab_mem_frame st.mem a i x hi hx) u1 u2
  have hf1 : FreshMapping { st with mem := slab_mem st.mem a (class_size i) } a PAGE_SIZE := hf
  have hadd := inv_add_mapping hmid a _ hf1 (Nat.mod_self _) (by unfold PAGE_SIZE; omega)
  have hempty : fl i = [] := by
    have := hinv.lists i hi
    rw [hnil] at this
    exact isList_zero _ _ this
  have hfresh : ∀ x, a ≤ x → x < a + PAGE_SIZE → ∀ r ∈ st.mapped, ¬ (r.1 ≤ x ∧ x < r.1 + r.2) := by
    intro x h1 h2 r hr
    have := hf.2.2.2 r hr
    omega
  have hsum2 : (PAGE_SIZE / class_size i - 2 + 1) * class_size i
      = (PAGE_SIZE / class_size i - 2) * class_size i + class_size i := by ring
  have hchainmem : ∀ x, x ∈ chain (a + class_size i + class_size i) (class_size i)
      (PAGE_SIZE / class_size i - 2) →
      ∃ k, 2 ≤ k ∧ k < PAGE_SIZE / class_size i ∧ x = a + k * class_size i := by
    intro x hx
    obtain ⟨k, hk, e⟩ := (mem_chain _ _ _ _).mp hx
    exact ⟨k + 2, by omega, by omega, by rw [e]; ring⟩
  have hal := hf.2.1
  exact
  { regions := hadd.regions
    disjoint := hadd.disjoint
    slab_page := by
      intro b j hb
      rcases List.mem_cons.mp hb with e | hb
      · have e1 : b = a := congrArg Prod.fst e
        have e2 : j = i := congrArg Prod.snd e
        subst e1 e2
        exact ⟨hi, List.mem_cons_self _ _⟩
      · exact hadd.slab_page b j hb
    slab_header := by
      intro b j hb
      rcases List.mem_cons.mp hb with e | hb
      · have e1 : b = a := congrArg Prod.fst e
        have e2 : j = i := congrArg Prod.snd e
        subst e1 e2
        exact slab_mem_header st.mem b j hi
      · exact hadd.slab_header b j hb
    lists := by
      intro j hj
      by_cases e : j = i
      · subst e
        simp only [Function.update_same]
        exact slab_mem_list st.mem a j hi hf.2.2.1
      · simp only [Function.update_noteq e]
        exact hadd.lists j hj
    lists_nodup := by
      intro j hj
      by_cases e : j = i
      · subst e
        simp only [Function.update_same]
        exact chain_nodup _ (by omega) _ _
      · simp only [Function.update_noteq e]
        exact hinv.lists_nodup j hj
    free_chunk := by
      intro j hj x hx
      by_cases e : j = i
      · subst e
        simp only [Function.update_same] at hx
        obtain ⟨k, hk1, hk2, e⟩ := hchainmem x hx
        exact ⟨a, k, List.mem_cons_self _ _, by omega, hk2, e⟩
      · simp only [Function.update_noteq e] at hx
        exact isChunk_mono _ _ _ _ (hinv.free_chunk j hj x hx)
    live_small := by
      intro p u hl hu
      rcases List.mem_cons.mp hl with e | hl
      · have e1 : p = a + class_size i := congrArg Prod.fst e
        have e2 : u = s := congrArg Prod.snd e
        subst e1 e2
        rw [hidx]
        exact ⟨a, 1, List.mem_cons_self _ _, le_refl _, by omega, by ring⟩
      · exact isChunk_mono _ _ _ _ (hinv.live_small p u hl hu)
    live_large := by
      intro p u hl hu
      rcases List.mem_cons.mp hl with e | hl
      · have e2 : u = s := congrArg Prod.snd e
        omega
      · obtain ⟨hm, hns⟩ := hadd.live_large p u hl hu
        refine ⟨hm, fun j hj => ?_⟩
        rcases List.mem_cons.mp hj with e | hj
        · have e1 : p = a := congrArg Prod.fst e
          obtain ⟨r, hr, h1, h2⟩ := live_in_mapped hinv p u hl
          exact hfresh p (by omega) (by unfold PAGE_SIZE; omega) r hr ⟨h1, h2⟩
        · exact hns j hj
    live_nodup := by
      show ((a + class_size i) :: g.live.map Prod.fst).Nodup
      refine List.nodup_cons.mpr ⟨fun hm => ?_, hinv.live_nodup⟩
      obtain ⟨⟨p, u⟩, hpu, e⟩ := List.mem_map.mp hm
      simp only at e
      subst e
      obtain ⟨r, hr, h1, h2⟩ := live_in_mapped hinv _ u hpu
      exact hfresh _ (by omega) (by omega) r hr ⟨h1, h2⟩
    free_not_live := by
      intro j hj x hx u hm
      by_cases e : j = i
      · subst e
        simp only [Function.update_same] at hx
        obtain ⟨k, hk1, hk2, e⟩ := hchainmem x hx
        have hkc : (k + 1) * class_size j ≤ (PAGE_SIZE / class_size j) * class_size j :=
          Nat.mul_le_mul_right _ hk2
        have hkc1 : (k + 1) * class_size j = k * class_size j + class_size j := by ring
        have hkc2 : 2 * class_size j ≤ k * class_size j := Nat.mul_le_mul_right _ hk1
        have hdm : (PAGE_SIZE / class_size j) * class_size j ≤ PAGE_SIZE := Nat.div_mul_le_self _ _
        rcases List.mem_cons.mp hm with e1 | hm
        · have : x = a + class_size j := congrArg Prod.fst e1
          omega
        · obtain ⟨r, hr, h1, h2⟩ := live_in_mapped hinv x u hm
          exact hfresh x (by omega) (by omega) r hr ⟨h1, h2⟩
      · simp only [Function.update_noteq e] at hx
        rcases List.mem_cons.mp hm with e1 | hm
        · have : x = a + class_size i := congrArg Prod.fst e1
          obtain ⟨r, hr, h1, h2⟩ := free_in_mapped hinv j x hj hx
          exact hfresh x (by omega) (by omega) r hr ⟨h1, h2⟩
        · exact hinv.free_not_live j hj x hx u hm
    complete := by
      intro b j hb k hk1 hk2
      rcases List.mem_cons.mp hb with e | hb
      · have e1 : b = a := congrArg Prod.fst e
        have e2 : j = i := congrArg Prod.snd e
        subst e1 e2
        by_cases hk : k = 1
        · right
          subst hk
          exact ⟨s, hs, by rw [Nat.one_mul]; exact List.mem_cons_self _ _⟩
        · left
          simp only [Function.update_same]
          rw [mem_chain]
          exact ⟨k - 2, by omega, by
            obtain ⟨k2, rfl⟩ : ∃ k2, k = k2 + 2 := ⟨k - 2, by omega⟩
            simp only [Nat.add_sub_cancel]
            ring⟩
      · rcases hinv.complete b j hb k hk1 hk2 with hfr | ⟨u, hu, hl⟩
        · left
          by_cases e : j = i
          · subst e
            rw [hempty] at hfr
            exact absurd hfr (List.not_mem_nil _)
          · simp only [Function.update_noteq e]
            exact hfr
        · exact Or.inr ⟨u, hu, List.mem_cons_of_mem _ hl⟩ }



/-! ## The invariant holds in every state of a guarded well-behaved run -/

theorem inv_init : Inv init_state ⟨[], []⟩ (fun _ => []) where
  regions := fun _ hr => absurd hr (List.not_mem_nil _)
  disjoint := fun _ hr => absurd hr (List.not_mem_nil _)
  slab_page := fun _ _ hb => absurd hb (List.not_mem_nil _)
  slab_header := fun _ _ hb => absurd hb (List.not_mem_nil _)
  lists := fun _ _ => rfl
  lists_nodup := fun _ _ => List.nodup_nil
  free_chunk := fun _ _ _ ha => absurd ha (List.not_mem_nil _)
  live_small := fun _ _ hl => absurd hl (List.not_mem_nil _)
  live_large := fun _ _ hl => absurd hl (List.not_mem_nil _)
  live_nodup := List.nodup_nil
  free_not_live := fun _ _ _ ha => absurd ha (List.not_mem_nil _)
  complete := fun _ _ hb => absurd hb (List.not_mem_nil _)

theorem xxmalloc_large_ok (st : State) (s a p : Nat) (st1 : State) (hs : 2048 < s)
    (h : xxmalloc st s (some a) = Outcome.ok (p, st1)) : ROUND_UP s PAGE_SIZE ≠ 0 := by
  intro h0
  unfold xxmalloc mmap at h
  rw [if_pos hs, if_pos h0] at h
  cases h

theorem reach_inv {st : State} {g : Ghost} (h : Reach true st g) : ∃ fl, Inv st g fl := by
  induction h with
  | init => exact ⟨_, inv_init⟩
  | malloc_large st g size a p st1 _ hs _ hf hx ih =>
    obtain ⟨fl, hinv⟩ := ih
    have hlen := xxmalloc_large_ok st size a p st1 hs hx
    rw [xxmalloc_large_eq st size a hs hlen] at hx
    cases hx
    exact ⟨fl, inv_malloc_large hinv size a hs hf hlen⟩
  | malloc_reuse st g size os p st1 _ hs hne hx ih =>
    obtain ⟨fl, hinv⟩ := ih
    obtain ⟨hacc, _⟩ := reuse_accessible hinv _ (request_small size hs).1 hne
    rw [xxmalloc_reuse_eq st size os hs hne hacc] at hx
    cases hx
    exact ⟨_, inv_malloc_reuse hinv size hs hne⟩
  | malloc_fresh st g size a p st1 _ hs hnil hf hx ih =>
    obtain ⟨fl, hinv⟩ := ih
    have hlt : a + PAGE_SIZE < 2 ^ 64 := by have := hf.2.2.1; omega
    rw [xxmalloc_fresh_eq st size a hs hnil hlt, (request_small size hs).2.2.1] at hx
    cases hx
    exact ⟨_, inv_malloc_fresh hinv size a _ hs rfl hnil hf⟩
  | free st g p size st1 _ hl hguard hx ih =>
    obtain ⟨fl, hinv⟩ := ih
    by_cases hs : size ≤ 2048
    · rw [xxfree_small_eq hinv p size hl hs] at hx
      cases hx
      exact ⟨_, inv_free_small hinv p size hl hs⟩
    · rw [(xxfree_large_eq hinv p size hl (by omega) (hguard rfl (by omega))).2] at hx
      cases hx
      exact ⟨fl, inv_free_large hinv p size (by omega)⟩
  | write st g p size a b _ hl h1 h2 _ ih =>
    obtain ⟨fl, hinv⟩ := ih
    exact ⟨fl, inv_write hinv p size a b hl h1 h2⟩



/-! ## Consequences used by the claims -/

/-- What the invariant says about a live small object. -/
theorem live_small_facts {st : State} {g : Ghost} {fl : Nat → List Nat} (hinv : Inv st g fl)
    (p s : Nat) (hl : (p, s) ∈ g.live) (hs : s ≤ 2048) :
    xxmalloc_usable_size st p = Outcome.ok (request_class s) ∧
    ∃ base k, base = p - p % PAGE_SIZE ∧ base % PAGE_SIZE = 0 ∧
      (base, request_index s) ∈ g.slabs ∧ (base, PAGE_SIZE) ∈ st.mapped ∧
      loadLE st.mem base 4 = MAGIC_NUM ∧ loadLE st.mem (base + 8) 8 = request_class s ∧
      1 ≤ k ∧ k ≤ PAGE_SIZE / request_class s - 1 ∧ p = base + k * request_class s ∧
      base + request_class s ≤ p ∧ p + request_class s ≤ base + PAGE_SIZE ∧ base + 16 ≤ p := by
  obtain ⟨_, _, hc, _⟩ := request_small s hs
  rw [hc]
  have hch := hinv.live_small p s hl hs
  obtain ⟨b, k, hb, hk1, hk2, e⟩ := hch
  obtain ⟨hi, h0, hal, hlt⟩ := slab_region hinv b _ hb
  obtain ⟨c1, c2, c3, c4, c5⟩ := chunk_arith _ b k hi hal hk1 hk2
  obtain ⟨e1, e2⟩ := hinv.slab_header b _ hb
  rw [← e] at c1 c2 c3 c4
  refine ⟨usable_size_in_slab hinv b _ p hb (by omega) (by omega), b, k, c4.symm, hal, hb,
    (hinv.slab_page b _ hb).2, e1, e2, hk1, by omega, e, c1, c2, by omega⟩



theorem usable_size_no_magic_at (st : State) (a : Nat) (ha0 : a ≠ 0)
    (hacc : accessible st.mapped (page_start_of a) 4 = true)
    (hm : loadLE st.mem (page_start_of a) 4 ≠ MAGIC_NUM) :
    xxmalloc_usable_size st a = Outcome.ok 0 := by
  unfold xxmalloc_usable_size
  rw [if_neg ha0]
  simp only
  rw [if_pos hacc, if_pos hm]

theorem usable_size_no_magic (st : State) (a : Nat) (ha0 : a ≠ 0) (hlt : a < 2 ^ 63)
    (hacc : accessible st.mapped (a - a % PAGE_SIZE) 4 = true)
    (hm : loadLE st.mem (a - a % PAGE_SIZE) 4 ≠ MAGIC_NUM) :
    xxmalloc_usable_size st a = Outcome.ok 0 := by
  rw [← page_start_of_eq a hlt] at hacc hm
  exact usable_size_no_magic_at st a ha0 hacc hm

/-- Every address of a mapping that was just zero-filled reports usable size 0. -/
theorem large_fresh_zero (st : State) (a len q : Nat) (ha0 : a ≠ 0) (hal : a % PAGE_SIZE = 0)
    (hlen : len % PAGE_SIZE = 0) (hlt : a + len ≤ 2 ^ 63) (h1 : a ≤ q) (h2 : q < a + len) :
    xxmalloc_usable_size
      { st with mem := zeroFill st.mem a len, mapped := (a, len) :: st.mapped } q
      = Outcome.ok 0 := by
  have hpage : a ≤ q - q % PAGE_SIZE ∧ q - q % PAGE_SIZE + 4096 ≤ a + len := by
    unfold PAGE_SIZE at *
    omega
  obtain ⟨hp1, hp2⟩ := hpage
  apply usable_size_no_magic _ q (by omega) (by omega)
  · exact accessible_of_mem _ a len _ 4 (List.mem_cons_self _ _) hp1 (by omega)
  · have hz : loadLE (zeroFill st.mem a len) (q - q % PAGE_SIZE) 4 = 0 := by
      apply loadLE_zero
      intro x hx1 hx2
      simp only [zeroFill]
      rw [if_pos ⟨by omega, by omega⟩]
    show loadLE (zeroFill st.mem a len) (q - q % PAGE_SIZE) 4 ≠ MAGIC_NUM
    rw [hz]
    decide

theorem reach_weaken {st : State} {g : Ghost} (h : Reach true st g) : Reach false st g := by
  induction h with
  | init => exact Reach.init
  | malloc_large st g size a p st1 _ hs hlt hf hx ih =>
    exact Reach.malloc_large st g size a p st1 ih hs hlt hf hx
  | malloc_reuse st g size os p st1 _ hs hne hx ih =>
    exact Reach.malloc_reuse st g size os p st1 ih hs hne hx
  | malloc_fresh st g size a p st1 _ hs hnil hf hx ih =>
    exact Reach.malloc_fresh st g size a p st1 ih hs hnil hf hx
  | free st g p size st1 _ hl _ hx ih =>
    exact Reach.free st g p size st1 ih hl (fun h => absurd h (by decide)) hx
  | write st g p size a b _ hl h1 h2 hb ih =>
    exact Reach.write st g p size a b ih hl h1 h2 hb

/-! ## Two concrete runs in which a large object carrying the magic number is released -/

theorem fresh_init (a len : Nat) (h0 : a ≠ 0) (hal : a % PAGE_SIZE = 0) (hlt : a + len ≤ 2 ^ 63) :
    FreshMapping init_state a len :=
  ⟨h0, hal, hlt, fun _ hr => absurd hr (List.not_mem_nil _)⟩

/-- C6: a request of more than 2048 bytes makes one `mmap` call.  If the kernel
refuses (or the rounded length has wrapped to 0, which the kernel refuses) the
process exits with status 2.  Otherwise the call returns the address chosen by
the kernel unchanged, records exactly that mapping, leaves the free lists and
all memory outside the new mapping as they were, and writes nothing into the
mapping: it reads as zero, so it holds no header.  A returned pointer is always
the kernel's address, never a value made up by the allocator. -/
theorem large_request_path (st : State) (s : Nat) (os : Option Nat) (hs : 2048 < s) :
    ((os = none ∨ ROUND_UP s PAGE_SIZE = 0) → xxmalloc st s os = Outcome.exit 2) ∧
    (∀ a, os = some a → ROUND_UP s PAGE_SIZE ≠ 0 →
      ∃ st1, xxmalloc st s os = Outcome.ok (a, st1) ∧
        st1.mapped = (a, ROUND_UP s PAGE_SIZE) :: st.mapped ∧
        st1.free_lists = st.free_lists ∧
        (∀ x, a ≤ x → x < a + ROUND_UP s PAGE_SIZE → st1.mem x = 0) ∧
        (∀ x, (x < a ∨ a + ROUND_UP s PAGE_SIZE ≤ x) → st1.mem x = st.mem x) ∧
        loadLE st1.mem a 4 ≠ MAGIC_NUM) ∧
    (∀ p st1, xxmalloc st s os = Outcome.ok (p, st1) → os = some p) := by
  refine ⟨?_, ?_, ?_⟩
  · intro h
    unfold xxmalloc mmap
    rw [if_pos hs]
    rcases h with h | h
    · subst h
      split_ifs <;> rfl
    · rw [if_pos h]
  · intro a ha hlen
    subst ha
    refine ⟨_, xxmalloc_large_eq st s a hs hlen, rfl, rfl, ?_, ?_, ?_⟩
    · intro x h1 h2
      show zeroFill st.mem a (ROUND_UP s PAGE_SIZE) x = 0
      simp only [zeroFill]
      rw [if_pos ⟨h1, h2⟩]
    · intro x hx
      show zeroFill st.mem a (ROUND_UP s PAGE_SIZE) x = st.mem x
      simp only [zeroFill]
      rw [if_neg (by omega)]
    · have hpage := ROUND_UP_page s
      have h4 : 4 ≤ ROUND_UP s PAGE_SIZE := by
        revert hpage hlen
        generalize ROUND_UP s PAGE_SIZE = len
        intro hlen hpage
        unfold PAGE_SIZE at hpage
        omega
      have hz : loadLE (zeroFill st.mem a (ROUND_UP s PAGE_SIZE)) a 4 = 0 := by
        apply loadLE_zero
        intro x hx1 hx2
        simp only [zeroFill]
        rw [if_pos ⟨hx1, by omega⟩]
      show loadLE (zeroFill st.mem a (ROUND_UP s PAGE_SIZE)) a 4 ≠ MAGIC_NUM
      rw [hz]
      decide
  · intro p st1 h
    unfold xxmalloc mmap at h
    rw [if_pos hs] at h
    by_cases h0 : ROUND_UP s PAGE_SIZE = 0
    · rw [if_pos h0] at h
      cases h
    · rw [if_neg h0] at h
      cases os with
      | none => cases h
      | some a =>
        simp only at h
        cases h
        rfl

/-- An instance: `xxmalloc(4096)` in the initial state, the kernel answering `0x2000`. -/
theorem large_request_path_witness :
    2048 < 4096 ∧
    (((some 8192 : Option Nat) = none ∨ ROUND_UP 4096 PAGE_SIZE = 0) →
      xxmalloc init_state 4096 (some 8192) = Outcome.exit 2) ∧
    (∀ a, some 8192 = some a → ROUND_UP 4096 PAGE_SIZE ≠ 0 →
      ∃ st1, xxmalloc init_state 4096 (some 8192) = Outcome.ok (a, st1) ∧
        st1.mapped = (a, ROUND_UP 4096 PAGE_SIZE) :: init_state.mapped ∧
        st1.free_lists = init_state.free_lists ∧
        (∀ x, a ≤ x → x < a + ROUND_UP 4096 PAGE_SIZE → st1.mem x = 0) ∧
        (∀ x, (x < a ∨ a + ROUND_UP 4096 PAGE_SIZE ≤ x) → st1.mem x = init_state.mem x) ∧
        loadLE st1.mem a 4 ≠ MAGIC_NUM) ∧
    (∀ p st1, xxmalloc init_state 4096 (some 8192) = Outcome.ok (p, st1) → some 8192 = some p) :=
  ⟨by decide, large_request_path init_state 4096 (some 8192) (by decide)⟩

/-- C8: for every `s > 2048`, when the kernel answers `mmap` with a fresh
page-aligned mapping at a user-space address `a`, `xxmalloc(s)` returns `a` and, before the caller
writes anything, the size query gives 0 at every address of the mapping
`[a, a + ROUND_UP(s, 4096))`, `a` included.  (The rounded length is not 0
unless `s` is within 4095 of `2^64`; then the process exits instead.) -/
theorem large_object_usable_size_zero (st : State) (s a : Nat) (hs : 2048 < s)
    (hf : FreshMapping st a (ROUND_UP s PAGE_SIZE)) :
    (ROUND_UP s PAGE_SIZE ≠ 0 →
      ∃ st1, xxmalloc st s (some a) = Outcome.ok (a, st1) ∧
        ∀ q, a ≤ q → q < a + ROUND_UP s PAGE_SIZE → xxmalloc_usable_size st1 q = Outcome.ok 0) ∧
    (ROUND_UP s PAGE_SIZE = 0 → xxmalloc st s (some a) = Outcome.exit 2) ∧
    (s + PAGE_SIZE ≤ SIZE_MOD → ROUND_UP s PAGE_SIZE ≠ 0) := by
  refine ⟨?_, ?_, ?_⟩
  · intro hlen
    exact ⟨_, xxmalloc_large_eq st s a hs hlen, fun q h1 h2 =>
      large_fresh_zero st a _ q hf.1 hf.2.1 (ROUND_UP_page s) hf.2.2.1 h1 h2⟩
  · intro h0
    unfold xxmalloc mmap
    rw [if_pos hs, if_pos h0]
  · intro hle
    unfold ROUND_UP SIZE_MOD PAGE_SIZE at *
    norm_num at hle ⊢
    split_ifs <;> omega

/-- An instance: `xxmalloc(5000)` in the initial state, the kernel answering `0x2000`. -/
theorem large_object_usable_size_zero_witness :
    2048 < 5000 ∧ FreshMapping init_state 8192 (ROUND_UP 5000 PAGE_SIZE) ∧
    (ROUND_UP 5000 PAGE_SIZE ≠ 0 →
      ∃ st1, xxmalloc init_state 5000 (some 8192) = Outcome.ok (8192, st1) ∧
        ∀ q, 8192 ≤ q → q < 8192 + ROUND_UP 5000 PAGE_SIZE →
          xxmalloc_usable_size st1 q = Outcome.ok 0) ∧
    (ROUND_UP 5000 PAGE_SIZE = 0 → xxmalloc init_state 5000 (some 8192) = Outcome.exit 2) ∧
    (5000 + PAGE_SIZE ≤ SIZE_MOD → ROUND_UP 5000 PAGE_SIZE ≠ 0) :=
  ⟨by decide, fresh_init _ _ (by decide) (by decide) (by decide),
    large_object_usable_size_zero init_state 5000 8192 (by decide)
      (fresh_init _ _ (by decide) (by decide) (by decide))⟩

/-- The run `A = xxmalloc(10); B = xxmalloc(17); xxfree(A); C = xxmalloc(10);
D = xxmalloc(4096)` from the initial state, the kernel answering the three
`mmap` calls with pages at `a1`, `a2` and `a3`. -/
theorem scenario_run (a1 a2 a3 : Nat) (os : Option Nat)
    (h1 : a1 ≠ 0 ∧ a1 % PAGE_SIZE = 0 ∧ a1 + PAGE_SIZE ≤ 2 ^ 63)
    (h2 : a2 ≠ 0 ∧ a2 % PAGE_SIZE = 0 ∧ a2 + PAGE_SIZE ≤ 2 ^ 63)
    (h3 : a3 ≠ 0 ∧ a3 % PAGE_SIZE = 0 ∧ a3 + PAGE_SIZE ≤ 2 ^ 63)
    (h12 : a1 + PAGE_SIZE ≤ a2 ∨ a2 + PAGE_SIZE ≤ a1) :
    ∃ s1 s2 s3 s4 s5,
      xxmalloc init_state 10 (some a1) = Outcome.ok (a1 + 16, s1) ∧
      xxmalloc_usable_size s1 (a1 + 16) = Outcome.ok 16 ∧
      xxmalloc s1 17 (some a2) = Outcome.ok (a2 + 32, s2) ∧
      xxmalloc_usable_size s2 (a2 + 32) = Outcome.ok 32 ∧ a2 + 32 ≠ a1 + 16 ∧
      xxfree s2 (a1 + 16) = Outcome.ok s3 ∧
      xxmalloc s3 10 os = Outcome.ok (a1 + 16, s4) ∧
      xxmalloc s4 4096 (some a3) = Outcome.ok (a3, s5) ∧
      xxmalloc_usable_size s5 a3 = Outcome.ok 0 ∧
      a3 % PAGE_SIZE = 0 ∧ a3 ≠ a1 + 16 ∧ a3 ≠ a2 + 32 := by
  have hx1 : xxmalloc init_state 10 (some a1) = Outcome.ok (a1 + 16, after_fresh init_state 10 a1) :=
    xxmalloc_fresh_eq init_state 10 a1 (by decide) rfl (by have := h1.2.2; omega)
  have hr1 : Reach true (after_fresh init_state 10 a1) ⟨[(a1 + 16, 10)], [(a1, 0)]⟩ :=
    Reach.malloc_fresh init_state ⟨[], []⟩ 10 a1 _ _ Reach.init
      (by decide) rfl (fresh_init a1 _ h1.1 h1.2.1 h1.2.2) hx1
  obtain ⟨fl1, hinv1⟩ := reach_inv hr1
  have hu1 : xxmalloc_usable_size (after_fresh init_state 10 a1) (a1 + 16) = Outcome.ok 16 :=
    (live_small_facts hinv1 _ 10 (List.mem_cons_self _ _) (by decide)).1
  have hf2 : FreshMapping (after_fresh init_state 10 a1) a2 PAGE_SIZE :=
    ⟨h2.1, h2.2.1, h2.2.2, fun r hr => by
      have : r = (a1, PAGE_SIZE) := List.mem_singleton.mp hr
      subst this
      exact h12.symm⟩
  have hx2 : xxmalloc (after_fresh init_state 10 a1) 17 (some a2)
      = Outcome.ok (a2 + 32, after_fresh (after_fresh init_state 10 a1) 17 a2) :=
    xxmalloc_fresh_eq _ 17 a2 (by decide) rfl (by have := h2.2.2; omega)
  have hr2 : Reach true (after_fresh (after_fresh init_state 10 a1) 17 a2)
      ⟨[(a2 + 32, 17), (a1 + 16, 10)], [(a2, 1), (a1, 0)]⟩ :=
    Reach.malloc_fresh _ _ 17 a2 _ _ hr1 (by decide) rfl hf2 hx2
  obtain ⟨fl2, hinv2⟩ := reach_inv hr2
  have hu2 : xxmalloc_usable_size (after_fresh (after_fresh init_state 10 a1) 17 a2) (a2 + 32)
      = Outcome.ok 32 :=
    (live_small_facts hinv2 _ 17 (List.mem_cons_self _ _) (by decide)).1
  have hmemA : (a1 + 16, 10) ∈
      (⟨[(a2 + 32, 17), (a1 + 16, 10)], [(a2, 1), (a1, 0)]⟩ : Ghost).live :=
    List.mem_cons_of_mem _ (List.mem_cons_self _ _)
  have hfree : xxfree (after_fresh (after_fresh init_state 10 a1) 17 a2) (a1 + 16)
      = Outcome.ok (after_free (after_fresh (after_fresh init_state 10 a1) 17 a2) 10 (a1 + 16)) :=
    xxfree_small_eq hinv2 _ 10 hmemA (by decide)
  have hr3 := Reach.free _ _ _ 10 _ hr2 hmemA (fun _ h => absurd h (by decide)) hfree
  obtain ⟨fl3, hinv3⟩ := reach_inv hr3
  have hhead : (after_free (after_fresh (after_fresh init_state 10 a1) 17 a2) 10 (a1 + 16)).free_lists
      (request_index 10) = a1 + 16 := by
    exact Function.update_same (request_index 10) (a1 + 16)
      (after_fresh (after_fresh init_state 10 a1) 17 a2).free_lists
  have hne : (after_free (after_fresh (after_fresh init_state 10 a1) 17 a2) 10 (a1 + 16)).free_lists
      (request_index 10) ≠ 0 := by rw [hhead]; omega
  obtain ⟨hacc, _⟩ := reuse_accessible hinv3 (request_index 10) (by decide) hne
  have hx4 := xxmalloc_reuse_eq _ 10 os (by decide) hne hacc
  rw [hhead] at hx4
  have hx5 : xxmalloc (after_reuse (after_free (after_fresh (after_fresh init_state 10 a1) 17 a2)
      10 (a1 + 16)) 10) 4096 (some a3) = Outcome.ok (a3, after_large _ 4096 a3) :=
    xxmalloc_large_eq _ 4096 a3 (by decide) (by decide)
  have hu5 : xxmalloc_usable_size (after_large (after_reuse (after_free (after_fresh
      (after_fresh init_state 10 a1) 17 a2) 10 (a1 + 16)) 10) 4096 a3) a3 = Outcome.ok 0 :=
    large_fresh_zero _ a3 (ROUND_UP 4096 PAGE_SIZE) a3 h3.1 h3.2.1
      (ROUND_UP_page 4096) h3.2.2 (le_refl _) (by show a3 < a3 + 4096; omega)
  refine ⟨_, _, _, _, _, hx1, hu1, hx2, hu2, ?_, hfree, hx4, hx5, hu5, h3.2.1, ?_, ?_⟩
  · unfold PAGE_SIZE at *; omega
  · unfold PAGE_SIZE at *; omega
  · unfold PAGE_SIZE at *; omega



/-- C9 (the code on the scenario): run from the initial state with the kernel
answering `0x10000`, `0x20000` and `0x30000`.  `A = xxmalloc(10)` has usable size
16; `B = xxmalloc(17)` has usable size 32 and `B ≠ A`; after `xxfree(A)`,
`C = xxmalloc(10)` is `A`; `D = xxmalloc(4096)` is page-aligned and none of `A`,
`B`, `C`.  The size query on `D` gives 0, which is less than 4096, although the
object holds 4096 usable bytes and the documentation of `xxmalloc_usable_size`
promises the number of bytes available for use in the object. -/
theorem scenario_large_object_reports_zero :
    ∃ s1 s2 s3 s4 s5,
      xxmalloc init_state 10 (some 65536) = Outcome.ok (65552, s1) ∧
      xxmalloc_usable_size s1 65552 = Outcome.ok 16 ∧
      xxmalloc s1 17 (some 131072) = Outcome.ok (131104, s2) ∧
      xxmalloc_usable_size s2 131104 = Outcome.ok 32 ∧ 131104 ≠ 65552 ∧
      xxfree s2 65552 = Outcome.ok s3 ∧
      xxmalloc s3 10 none = Outcome.ok (65552, s4) ∧
      xxmalloc s4 4096 (some 196608) = Outcome.ok (196608, s5) ∧
      196608 % PAGE_SIZE = 0 ∧ 196608 ≠ 65552 ∧ 196608 ≠ 131104 ∧
      (∀ x, 196608 ≤ x → x < 196608 + 4096 → mappedByte s5.mapped x = true) ∧
      xxmalloc_usable_size s5 196608 = Outcome.ok 0 ∧ ¬ 4096 ≤ 0 := by
  obtain ⟨s1, s2, s3, s4, s5, h1, u1, h2, u2, _, h3, h4, h5, h6, _⟩ :=
    scenario_run 65536 131072 196608 none (by decide) (by decide) (by decide) (by decide)
  have hlen : ROUND_UP 4096 PAGE_SIZE ≠ 0 := by decide
  have h5a := h5
  rw [xxmalloc_large_eq s4 4096 196608 (by decide) hlen] at h5a
  cases h5a
  refine ⟨s1, s2, s3, s4, _, h1, u1, h2, u2, by decide, h3, h4, h5, by decide, by decide,
    by decide, ?_, h6, by decide⟩
  intro x hx1 hx2
  exact mappedByte_of_mem _ 196608 (ROUND_UP 4096 PAGE_SIZE) x (List.mem_cons_self _ _) hx1
    (by rw [show ROUND_UP 4096 PAGE_SIZE = 4096 from by decide]; exact hx2)

/-! ## Large-request rounding -/

/-- C15 (counterexample to the claim as stated): for the `size_t` value
`s = 2^64 - 1` the sum in `ROUND_UP(s, 4096)` wraps and the result is 0, which is
not at least `s`. -/
theorem round_up_wraps_to_zero :
    2048 < 2 ^ 64 - 1 ∧ 2 ^ 64 - 1 < SIZE_MOD ∧ ROUND_UP (2 ^ 64 - 1) PAGE_SIZE = 0 ∧
    ¬ 2 ^ 64 - 1 ≤ ROUND_UP (2 ^ 64 - 1) PAGE_SIZE := by
  refine ⟨by norm_num, by unfold SIZE_MOD; norm_num, by decide, by decide⟩

/-- C15 (as amended): for every request size `s` with `2048 < s ≤ 2^64 - 4096`
(the largest multiple of 4096 in the `size_t` range) the length
`ROUND_UP(s, 4096)` that `xxmalloc` passes to `mmap` is a multiple of 4096, is
at least `s`, is less than `s + 4096` and is the least such multiple; for the
larger `size_t` values that are not themselves multiples the sum wraps, the
length is 0 and the process exits. -/
theorem round_up_large_request (st : State) (s : Nat) (os : Option Nat) (hs : 2048 < s)
    (hlt : s < SIZE_MOD) :
    (s + PAGE_SIZE ≤ SIZE_MOD →
      ROUND_UP s PAGE_SIZE % PAGE_SIZE = 0 ∧ s ≤ ROUND_UP s PAGE_SIZE ∧
      ROUND_UP s PAGE_SIZE < s + PAGE_SIZE ∧
      (∀ m, m % PAGE_SIZE = 0 → s ≤ m → ROUND_UP s PAGE_SIZE ≤ m) ∧
      (∀ a, os = some a → xxmalloc st s os = Outcome.ok (a, after_large st s a) ∧
        (after_large st s a).mapped = (a, ROUND_UP s PAGE_SIZE) :: st.mapped)) ∧
    (SIZE_MOD < s + PAGE_SIZE →
      ROUND_UP s PAGE_SIZE = 0 ∧ xxmalloc st s os = Outcome.exit 2) := by
  constructor
  · intro hle
    refine ⟨ROUND_UP_page s, ?_, ?_, ?_, ?_⟩
    · unfold ROUND_UP SIZE_MOD PAGE_SIZE at *
      norm_num at hle ⊢
      split_ifs <;> omega
    · unfold ROUND_UP SIZE_MOD PAGE_SIZE at *
      norm_num at hle ⊢
      split_ifs <;> omega
    · intro m hm hsm
      unfold ROUND_UP SIZE_MOD PAGE_SIZE at *
      norm_num at hle hm ⊢
      split_ifs <;> omega
    · intro a ha
      subst ha
      have hne : ROUND_UP s PAGE_SIZE ≠ 0 := by
        unfold ROUND_UP SIZE_MOD PAGE_SIZE at *
        norm_num at hle ⊢
        split_ifs <;> omega
      exact ⟨xxmalloc_large_eq st s a hs hne, rfl⟩
  · intro hgt
    have h0 : ROUND_UP s PAGE_SIZE = 0 := by
      unfold ROUND_UP SIZE_MOD PAGE_SIZE at *
      norm_num at hgt hlt ⊢
      split_ifs <;> omega
    refine ⟨h0, ?_⟩
    unfold xxmalloc mmap
    rw [if_pos hs, if_pos h0]

/-- An instance: `s = 5000`, rounded to 8192. -/
theorem round_up_large_request_witness :
    2048 < 5000 ∧ 5000 < SIZE_MOD ∧
    (5000 + PAGE_SIZE ≤ SIZE_MOD →
      ROUND_UP 5000 PAGE_SIZE % PAGE_SIZE = 0 ∧ 5000 ≤ ROUND_UP 5000 PAGE_SIZE ∧
      ROUND_UP 5000 PAGE_SIZE < 5000 + PAGE_SIZE ∧
      (∀ m, m % PAGE_SIZE = 0 → 5000 ≤ m → ROUND_UP 5000 PAGE_SIZE ≤ m) ∧
      (∀ a, some 8192 = some a →
        xxmalloc init_state 5000 (some 8192) = Outcome.ok (a, after_large init_state 5000 a) ∧
        (after_large init_state 5000 a).mapped
          = (a, ROUND_UP 5000 PAGE_SIZE) :: init_state.mapped)) ∧
    (SIZE_MOD < 5000 + PAGE_SIZE →
      ROUND_UP 5000 PAGE_SIZE = 0 ∧
      xxmalloc init_state 5000 (some 8192) = Outcome.exit 2) :=
  ⟨by decide, by unfold SIZE_MOD; norm_num,
    round_up_large_request init_state 5000 (some 8192) (by decide)
      (by unfold SIZE_MOD; norm_num)⟩

/-! ## The size query reads one header -/

/-- C13 (as amended): in every state the size query on NULL gives 0.  The
function has no store to memory or to `free_lists` (its embedding returns a
value and no state), and its result depends only on the mapped regions and on
the 16 header bytes at `free_address - free_address % PAGE_SIZE`, computed on
`intptr_t`: two states that agree there give the same answer, whatever their
free lists and the rest of memory.  For every pointer below `2^63` (every
user-space pointer) that address is `ptr - ptr % 4096`, the start of the page
that contains `ptr`.  For a pointer with the top bit set the signed remainder
is not positive and the address is the next multiple of 4096 at or above
`ptr`, modulo `2^64`. -/
theorem usable_size_read_only (st : State) (ptr : Nat) :
    xxmalloc_usable_size st 0 = Outcome.ok 0 ∧
    (∀ st1 : State, st1.mapped = st.mapped →
      (∀ x, page_start_of ptr ≤ x → x < page_start_of ptr + 16 → st1.mem x = st.mem x) →
      xxmalloc_usable_size st1 ptr = xxmalloc_usable_size st ptr) ∧
    (ptr < 2 ^ 63 →
      page_start_of ptr = ptr - ptr % PAGE_SIZE ∧ page_start_of ptr % PAGE_SIZE = 0 ∧
      page_start_of ptr ≤ ptr ∧ ptr < page_start_of ptr + PAGE_SIZE) ∧
    (2 ^ 63 ≤ ptr → ptr < 2 ^ 64 →
      page_start_of ptr = (ptr + (SIZE_MOD - ptr) % PAGE_SIZE) % SIZE_MOD) := by
  refine ⟨rfl, ?_, ?_, fun h1 h2 => page_start_of_high ptr h1 h2⟩
  · intro st1 hmap hmem
    have h4 := loadLE_congr st.mem st1.mem 4 (page_start_of ptr)
      (fun x h1 h2 => hmem x h1 (by omega))
    have h8 := loadLE_congr st.mem st1.mem 8 (page_start_of ptr + 8)
      (fun x h1 h2 => hmem x (by omega) (by omega))
    unfold xxmalloc_usable_size
    simp only [hmap, h4, h8]
  · intro hlt
    rw [page_start_of_eq ptr hlt]
    unfold PAGE_SIZE
    omega

/-- An instance: the page base `0x1000` of the formatted page of `steal_s1`, queried in
`steal_s1` and in the state after a later large allocation. -/
theorem usable_size_read_only_witness :
    xxmalloc_usable_size steal_s1 0 = Outcome.ok 0 ∧
    xxmalloc_usable_size { steal_s1 with free_lists := fun _ => 0 } 4100
      = xxmalloc_usable_size steal_s1 4100 ∧
    page_start_of 4100 = 4100 - 4100 % PAGE_SIZE :=
  ⟨(usable_size_read_only steal_s1 4100).1,
    (usable_size_read_only steal_s1 4100).2.1 { steal_s1 with free_lists := fun _ => 0 } rfl
      (fun _ _ _ => rfl),
    ((usable_size_read_only steal_s1 4100).2.2.1 (by norm_num)).1⟩

/-- C13 (counterexample to the claim as stated): for the pointer `2^64 - 1`,
the value of `(void*)-1`, the signed remainder is `-1` and the header is read at
address 0, not at `ptr - ptr % 4096 = 2^64 - 4096`.  In `high_s` the query
gives 16; with the bytes at address 0 cleared it gives 0, although the two
states agree on every address from 16 on and so on the page that contains the
pointer; in the initial state the read of address 0 is an invalid access. -/
theorem usable_size_of_high_pointer :
    page_start_of (2 ^ 64 - 1) = 0 ∧
    (2 ^ 64 - 1) - (2 ^ 64 - 1) % PAGE_SIZE = 2 ^ 64 - 4096 ∧
    xxmalloc_usable_size high_s (2 ^ 64 - 1) = Outcome.ok 16 ∧
    xxmalloc_usable_size { high_s with mem := fun _ => 0 } (2 ^ 64 - 1) = Outcome.ok 0 ∧
    (∀ x, 16 ≤ x → high_s.mem x = 0) ∧
    xxmalloc_usable_size init_state (2 ^ 64 - 1) = Outcome.fault := by
  have hp : page_start_of (2 ^ 64 - 1) = 0 := by decide
  refine ⟨hp, by decide, ?_, ?_, ?_, ?_⟩
  · unfold xxmalloc_usable_size
    rw [if_neg (by norm_num)]
    simp only [hp]
    rfl
  · unfold xxmalloc_usable_size
    rw [if_neg (by norm_num)]
    simp only [hp]
    rfl
  · intro x hx
    show storeLE (storeLE (fun _ => 0) 0 4 MAGIC_NUM) 8 8 16 x = 0
    simp only [storeLE]
    rw [if_neg (by omega), if_neg (by omega)]
  · unfold xxmalloc_usable_size
    rw [if_neg (by norm_num)]
    simp only [hp]
    rfl

/-! ## The layout of a freshly formatted page -/

theorem chain_eq_map (c : Nat) : ∀ (j p : Nat),
    chain p c j = (List.range j).map (fun t => p + t * c) := by
  intro j
  induction j with
  | zero => intro p; rfl
  | succ j ih =>
    intro p
    rw [List.range_succ_eq_map, List.map_cons, List.map_map]
    simp only [chain, ih (p + c), Nat.zero_mul, Nat.add_zero]
    congr 1
    apply List.map_congr_left
    intro t _
    simp only [Function.comp, Nat.succ_eq_add_one]
    ring

/-- C14: for every `s ≤ 2048` with size class `c`, when free list `index(c)` is
empty and `mmap` answers with a page at `base`, `xxmalloc(s)` writes the header
`{123456, c}` at `base`, returns `base + c`, and leaves that free list holding
exactly `base + 2c, base + 3c, ..., base + 4096 - c` in ascending order and
NULL-terminated: `4096 / c - 2` nodes, none when `c = 2048`.  The last chunk
ends at `base + 4096`; the other free lists and the memory outside the page are
unchanged. -/
theorem slab_layout (st : State) (s base : Nat) (hs : s ≤ 2048)
    (hnil : st.free_lists (request_index s) = 0) (hb : base + PAGE_SIZE ≤ 2 ^ 63) :
    ∃ st1, xxmalloc st s (some base) = Outcome.ok (base + request_class s, st1) ∧
      st1.mapped = (base, PAGE_SIZE) :: st.mapped ∧
      loadLE st1.mem base 4 = MAGIC_NUM ∧ loadLE st1.mem (base + 8) 8 = request_class s ∧
      IsList st1.mem (st1.free_lists (request_index s))
        ((List.range (PAGE_SIZE / request_class s - 2)).map
          (fun j => base + (j + 2) * request_class s)) ∧
      ((List.range (PAGE_SIZE / request_class s - 2)).map
          (fun j => base + (j + 2) * request_class s)).Pairwise (fun x y => x < y) ∧
      ((List.range (PAGE_SIZE / request_class s - 2)).map
          (fun j => base + (j + 2) * request_class s)).length = PAGE_SIZE / request_class s - 2 ∧
      (request_class s = 2048 → st1.free_lists (request_index s) = 0) ∧
      base + (PAGE_SIZE / request_class s - 1) * request_class s + request_class s
        = base + PAGE_SIZE ∧
      (∀ j, j ≠ request_index s → st1.free_lists j = st.free_lists j) ∧
      (∀ x, x < base ∨ base + PAGE_SIZE ≤ x → st1.mem x = st.mem x) := by
  obtain ⟨hi, _, hc, _⟩ := request_small s hs
  obtain ⟨h16, h2048, hsum, h2, h256⟩ := class_geom _ hi
  have hx := xxmalloc_fresh_eq st s base hs hnil (by omega)
  have hlist := slab_mem_list st.mem base _ hi hb
  have hhdr := slab_mem_header st.mem base _ hi
  rw [chain_eq_map] at hlist
  have hmapeq : (List.range (PAGE_SIZE / class_size (request_index s) - 2)).map
      (fun t => base + class_size (request_index s) + class_size (request_index s)
        + t * class_size (request_index s))
      = (List.range (PAGE_SIZE / class_size (request_index s) - 2)).map
      (fun j => base + (j + 2) * class_size (request_index s)) := by
    apply List.map_congr_left
    intro t _
    ring
  rw [hmapeq] at hlist
  rw [hc] at hx ⊢
  refine ⟨_, hx, rfl, hhdr.1, hhdr.2, ?_, ?_, ?_, ?_, ?_, ?_, ?_⟩
  · show IsList _ (Function.update st.free_lists (request_index s) _ (request_index s)) _
    rw [Function.update_same]
    exact hlist
  · rw [List.pairwise_map]
    refine List.Pairwise.imp ?_ (List.pairwise_lt_range _)
    intro x y hxy
    have : (x + 2) * class_size (request_index s) < (y + 2) * class_size (request_index s) :=
      Nat.mul_lt_mul_of_pos_right (by omega) (by omega)
    omega
  · rw [List.length_map, List.length_range]
  · intro h2k
    show Function.update st.free_lists (request_index s) _ (request_index s) = 0
    rw [Function.update_same]
    have h0 : PAGE_SIZE / class_size (request_index s) - 2 = 0 := by rw [h2k]; decide
    rw [h0] at hlist
    exact hlist
  · have e : (PAGE_SIZE / class_size (request_index s) - 2 + 1)
        = PAGE_SIZE / class_size (request_index s) - 1 := by omega
    rw [← e]
    omega
  · intro j hj
    show Function.update st.free_lists (request_index s) _ j = st.free_lists j
    exact Function.update_noteq hj _ _
  · intro x hxx
    exact slab_mem_frame st.mem base _ x hi hxx

/-- An instance: `xxmalloc(1000)` in the initial state, the kernel answering `0x10000`. -/
theorem slab_layout_witness :
    1000 ≤ 2048 ∧ init_state.free_lists (request_index 1000) = 0 ∧ 65536 + PAGE_SIZE ≤ 2 ^ 63 ∧
    ∃ st1, xxmalloc init_state 1000 (some 65536) = Outcome.ok (65536 + request_class 1000, st1) ∧
      st1.mapped = (65536, PAGE_SIZE) :: init_state.mapped ∧
      loadLE st1.mem 65536 4 = MAGIC_NUM ∧ loadLE st1.mem (65536 + 8) 8 = request_class 1000 ∧
      IsList st1.mem (st1.free_lists (request_index 1000))
        ((List.range (PAGE_SIZE / request_class 1000 - 2)).map
          (fun j => 65536 + (j + 2) * request_class 1000)) ∧
      ((List.range (PAGE_SIZE / request_class 1000 - 2)).map
          (fun j => 65536 + (j + 2) * request_class 1000)).Pairwise (fun x y => x < y) ∧
      ((List.range (PAGE_SIZE / request_class 1000 - 2)).map
          (fun j => 65536 + (j + 2) * request_class 1000)).length
        = PAGE_SIZE / request_class 1000 - 2 ∧
      (request_class 1000 = 2048 → st1.free_lists (request_index 1000) = 0) ∧
      65536 + (PAGE_SIZE / request_class 1000 - 1) * request_class 1000 + request_class 1000
        = 65536 + PAGE_SIZE ∧
      (∀ j, j ≠ request_index 1000 → st1.free_lists j = init_state.free_lists j) ∧
      (∀ x, x < 65536 ∨ 65536 + PAGE_SIZE ≤ x → st1.mem x = init_state.mem x) :=
  ⟨by norm_num, rfl, by decide, slab_layout init_state 1000 65536 (by norm_num) rfl (by decide)⟩

/-! ## Termination -/

theorem round_loop_steps (x : Nat) : ∀ (n f cur : Nat), (∀ k, k < n → cur * 2 ^ k < x) →
    cur * 2 ^ n < SIZE_MOD → round_loop (f + n) x cur = round_loop f x (cur * 2 ^ n) := by
  intro n
  induction n with
  | zero => intro f cur _ _; simp
  | succ n ih =>
    intro f cur hlt hb
    have h0 : cur < x := by simpa using hlt 0 (Nat.succ_pos n)
    have hpow : cur * 2 ^ (n + 1) = cur * 2 * 2 ^ n := by rw [pow_succ]; ring
    have hle : cur * 2 ≤ cur * 2 * 2 ^ n := Nat.le_mul_of_pos_right _ (Nat.two_pow_pos n)
    have hmod : cur * 2 % SIZE_MOD = cur * 2 := Nat.mod_eq_of_lt (by omega)
    rw [show f + (n + 1) = (f + n) + 1 by omega, round_loop_step _ _ _ h0, hmod, hpow]
    apply ih
    · intro k hk
      have := hlt (k + 1) (by omega)
      rw [pow_succ] at this
      calc cur * 2 * 2 ^ k = cur * (2 ^ k * 2) := by ring
        _ < x := this
    · rw [← hpow]; exact hb

/-- For a request of class index `i` the doubling loop runs exactly `i` times:
`i + 1` evaluations of the loop condition give the result, `i` do not. -/
theorem round_loop_exact (x : Nat) (hx : x ≤ 2048) :
    ∃ i, i < 8 ∧ round_loop (i + 1) x MIN_MALLOC_SIZE = some (class_size i) ∧
      round_loop i x MIN_MALLOC_SIZE = none ∧ request_index x = i := by
  obtain ⟨hi, _, _, hle⟩ := request_small x hx
  obtain ⟨i, hi2, hr, hle2, hmin⟩ := round_to_pow_of_two_small x hx
  have hidx : request_index x = i := by
    unfold request_index
    rw [hr]
    simp [free_list_index_class i hi2]
  have hbelow : ∀ k, k < i → MIN_MALLOC_SIZE * 2 ^ k < x := by
    intro k hk
    rcases hmin with h0 | h1
    · omega
    · have : 2 ^ k ≤ 2 ^ (i - 1) := Nat.pow_le_pow_right (by norm_num) (by omega)
      unfold class_size at h1
      unfold MIN_MALLOC_SIZE
      omega
  have hb : MIN_MALLOC_SIZE * 2 ^ i < SIZE_MOD := by
    have : 2 ^ i ≤ 2 ^ 7 := Nat.pow_le_pow_right (by norm_num) (by omega)
    unfold MIN_MALLOC_SIZE SIZE_MOD
    norm_num at this ⊢
    omega
  refine ⟨i, hi2, ?_, ?_, hidx⟩
  · rw [show i + 1 = 1 + i by omega, round_loop_steps x i 1 _ hbelow hb]
    exact round_loop_stop _ _ _ hle2
  · have := round_loop_steps x i 0 _ hbelow hb
    rw [Nat.zero_add] at this
    rw [this]
    rfl

/-- The chunk-separating loop ends whenever the step is positive and the fuel
covers the distance to the end of the page. -/
theorem carve_some (c pe : Nat) (_hc : 0 < c) : ∀ (fuel : Nat) (m : Mem) (p cur : Nat),
    1 ≤ fuel → pe ≤ p + fuel * c → ∃ r, carve fuel m p c pe cur = some r := by
  intro fuel
  induction fuel with
  | zero => intro m p cur h _; omega
  | succ f ih =>
    intro m p cur _ hpe
    simp only [carve]
    by_cases hlt : p + c < pe
    · rw [if_pos hlt]
      have e : (f + 1) * c = f * c + c := by ring
      apply ih
      · rcases f with _ | f
        · simp at e; omega
        · omega
      · omega
    · rw [if_neg hlt]
      exact ⟨_, rfl⟩

/-- With fewer evaluations of the loop condition than chunks remain, the
chunk-separating loop has not ended. -/
theorem carve_none (c : Nat) (hc : 0 < c) : ∀ (fuel j : Nat) (m : Mem) (p cur : Nat),
    fuel ≤ j → carve fuel m p c (p + (j + 1) * c) cur = none := by
  intro fuel
  induction fuel with
  | zero => intro j m p cur _; rfl
  | succ f ih =>
    intro j m p cur hle
    obtain ⟨j1, rfl⟩ : ∃ j1, j = j1 + 1 := ⟨j - 1, by omega⟩
    have hlt : p + c < p + (j1 + 1 + 1) * c := by
      have : (j1 + 1 + 1) * c = c + (j1 + 1) * c := by ring
      have : 0 < (j1 + 1) * c := Nat.mul_pos (by omega) hc
      omega
    have hpe : p + (j1 + 1 + 1) * c = (p + c) + (j1 + 1) * c := by ring
    simp only [carve]
    rw [if_pos hlt, hpe]
    exact ih j1 _ _ _ (by omega)

theorem xxmalloc_never_hangs (st : State) (s : Nat) (os : Option Nat) :
    xxmalloc st s os ≠ Outcome.hang := by
  unfold xxmalloc mmap
  by_cases hs : s > 2048
  · rw [if_pos hs]
    split_ifs
    · simp
    · cases os <;> simp
  · rw [if_neg hs]
    obtain ⟨hi, hr, _, _⟩ := request_small s (by omega)
    obtain ⟨h16, h2048, hsum, h2, h256⟩ := class_geom _ hi
    rw [hr]
    simp only [free_list_index_class _ hi]
    by_cases hne : st.free_lists (request_index s) ≠ 0
    · rw [if_pos hne]
      split_ifs <;> simp
    · rw [if_neg hne, if_neg (by unfold PAGE_SIZE; omega)]
      cases os with
      | none => simp
      | some a =>
        simp only
        obtain ⟨r, hr2⟩ := carve_some (class_size (request_index s)) (a + PAGE_SIZE) (by omega)
          PAGE_SIZE
          (storeLE (storeLE (zeroFill st.mem a PAGE_SIZE) a 4 MAGIC_NUM) (a + 8) 8
            (class_size (request_index s)))
          (a + class_size (request_index s)) (a + class_size (request_index s))
          (by unfold PAGE_SIZE; omega)
          (by
            have : PAGE_SIZE ≤ PAGE_SIZE * class_size (request_index s) :=
              Nat.le_mul_of_pos_right _ (by omega)
            omega)
        rw [hr2]
        simp

/-- C19: for every request size `s`, every state and every answer of the kernel,
`xxmalloc(s)` terminates: it returns, exits or faults, it never loops forever.
For `s > 2048` no loop is entered (the result is that of the one `mmap` call;
the doubling loop would not end for `x = 2^63 + 1`).  For `s ≤ 2048` of class
index `i ≤ 7` the doubling loop of `round_to_pow_of_two` runs exactly `i`
times (`i + 1` evaluations of its condition give the result, `i` do not), and
the chunk-separating loop, which advances `p` by the class size `c ≥ 16`, runs
exactly `4096 / c - 2 ≤ 254` times. -/
theorem xxmalloc_terminates (st : State) (s : Nat) (os : Option Nat) :
    xxmalloc st s os ≠ Outcome.hang ∧
    (2048 < s → xxmalloc st s os = Outcome.exit 2 ∨
      ∃ a, os = some a ∧ xxmalloc st s os = Outcome.ok (a, after_large st s a)) ∧
    round_to_pow_of_two (2 ^ 63 + 1) = none ∧
    (s ≤ 2048 →
      ∃ i, i ≤ 7 ∧ request_index s = i ∧ request_class s = class_size i ∧
        round_loop (i + 1) s MIN_MALLOC_SIZE = some (class_size i) ∧
        round_loop i s MIN_MALLOC_SIZE = none ∧
        16 ≤ class_size i ∧ PAGE_SIZE / class_size i - 2 ≤ 254 ∧
        ∀ (m : Mem) (a cur : Nat),
          (∃ r, carve (PAGE_SIZE / class_size i - 2 + 1) m (a + class_size i) (class_size i)
            (a + PAGE_SIZE) cur = some r) ∧
          carve (PAGE_SIZE / class_size i - 2) m (a + class_size i) (class_size i)
            (a + PAGE_SIZE) cur = none) := by
  refine ⟨xxmalloc_never_hangs st s os, ?_, rfl, ?_⟩
  · intro hs
    by_cases h0 : ROUND_UP s PAGE_SIZE = 0
    · left
      unfold xxmalloc mmap
      rw [if_pos hs, if_pos h0]
    · cases os with
      | none =>
        left
        unfold xxmalloc mmap
        rw [if_pos hs, if_neg h0]
      | some a => exact Or.inr ⟨a, rfl, xxmalloc_large_eq st s a hs h0⟩
  · intro hs
    obtain ⟨i, hi, hsome, hnone, hidx⟩ := round_loop_exact s hs
    obtain ⟨h16, h2048, hsum, h2, h256⟩ := class_geom i hi
    have hc := (request_small s hs).2.2.1
    rw [hidx] at hc
    refine ⟨i, by omega, hidx, hc, hsome, hnone, h16, by omega, ?_⟩
    intro m a cur
    have hpe : a + PAGE_SIZE
        = a + class_size i + (PAGE_SIZE / class_size i - 2 + 1) * class_size i := by omega
    constructor
    · exact carve_some (class_size i) _ (by omega) _ m _ cur (by omega) (by omega)
    · rw [hpe]
      exact carve_none (class_size i) (by omega) _ _ m _ cur (le_refl _)

/-- An instance: `xxmalloc(100)` in the initial state, the kernel answering `0x10000`. -/
theorem xxmalloc_terminates_witness :
    xxmalloc init_state 100 (some 65536) ≠ Outcome.hang ∧
    ∃ i, i ≤ 7 ∧ request_index 100 = i ∧ request_class 100 = class_size i ∧
      round_loop (i + 1) 100 MIN_MALLOC_SIZE = some (class_size i) ∧
      round_loop i 100 MIN_MALLOC_SIZE = none ∧
      16 ≤ class_size i ∧ PAGE_SIZE / class_size i - 2 ≤ 254 ∧
      ∀ (m : Mem) (a cur : Nat),
        (∃ r, carve (PAGE_SIZE / class_size i - 2 + 1) m (a + class_size i) (class_size i)
          (a + PAGE_SIZE) cur = some r) ∧
        carve (PAGE_SIZE / class_size i - 2) m (a + class_size i) (class_size i)
          (a + PAGE_SIZE) cur = none :=
  ⟨(xxmalloc_terminates init_state 100 (some 65536)).1,
    (xxmalloc_terminates init_state 100 (some 65536)).2.2.2 (by norm_num)⟩

/-! ## Pointers into a formatted page -/

theorem accessible_sub (mp : List (Nat × Nat)) (a n a1 n1 : Nat)
    (h : accessible mp a n = true) (h1 : a ≤ a1) (h2 : a1 + n1 ≤ a + n) :
    accessible mp a1 n1 = true := by
  unfold accessible at *
  rw [List.all_eq_true] at *
  intro t ht
  rw [List.mem_range] at ht
  have := h (a1 - a + t) (List.mem_range.mpr (by omega))
  rw [show a + (a1 - a + t) = a1 + t by omega] at this
  exact this

theorem formatted_usable_size (st : State) (b i ptr : Nat) (hp : FormattedPage st b i)
    (h1 : b ≤ ptr) (h2 : ptr < b + PAGE_SIZE) :
    xxmalloc_usable_size st ptr = Outcome.ok (class_size i) := by
  obtain ⟨hi, h0, hal, hlt, hacc, e1, e2⟩ := hp
  have hps : page_start_of ptr = b := by
    rw [page_start_of_eq ptr (by omega)]
    unfold PAGE_SIZE at *
    omega
  unfold xxmalloc_usable_size
  rw [if_neg (by omega)]
  simp only [hps]
  rw [if_pos (accessible_sub _ b PAGE_SIZE b 4 hacc (le_refl _) (by unfold PAGE_SIZE; omega)),
    if_neg (by rw [e1]; simp),
    if_pos (accessible_sub _ b PAGE_SIZE (b + 8) 8 hacc (by omega) (by unfold PAGE_SIZE; omega)),
    e2]

theorem chunk_offset_arith (i b k d : Nat) (hi : i < 8) (hb : b % PAGE_SIZE = 0) (hk1 : 1 ≤ k)
    (hk2 : k < PAGE_SIZE / class_size i) (hd : d < class_size i) :
    (b + k * class_size i + d) - (b + k * class_size i + d) % class_size i
      = b + k * class_size i := by
  unfold PAGE_SIZE at *
  rcases class_size_cases i hi with h | h | h | h | h | h | h | h <;> rw [h] at hk2 hd ⊢ <;>
    norm_num at hk2 ⊢ <;> omega

/-- Releasing any pointer into a chunk of a formatted page pushes the chunk. -/
theorem formatted_xxfree (st : State) (b i k d : Nat) (hp : FormattedPage st b i)
    (hk1 : 1 ≤ k) (hk2 : k < PAGE_SIZE / class_size i) (hd : d < class_size i) :
    xxfree st (b + k * class_size i + d) = Outcome.ok
      { st with mem := storeLE st.mem (b + k * class_size i) 8 (st.free_lists i),
                free_lists := Function.update st.free_lists i (b + k * class_size i) } := by
  obtain ⟨hi, h0, hal, hlt, hacc, e1, e2⟩ := hp
  obtain ⟨c1, c2, c3, c4, c5⟩ := chunk_arith i b k hi hal hk1 hk2
  have hu := formatted_usable_size st b i (b + k * class_size i + d)
    ⟨hi, h0, hal, hlt, hacc, e1, e2⟩ (by omega) (by omega)
  have hobj := chunk_offset_arith i b k d hi hal hk1 hk2 hd
  unfold xxfree
  rw [if_neg (by omega), hu]
  simp only [free_list_index_class _ hi]
  rw [if_neg (by omega)]
  simp only [hobj]
  rw [if_pos (accessible_sub _ b PAGE_SIZE _ 8 hacc (by omega) (by omega))]

theorem steal_formatted : FormattedPage steal_s1 4096 7 :=
  ⟨by decide, by decide, by decide, by decide,
    accessible_of_mem _ 4096 PAGE_SIZE 4096 PAGE_SIZE (List.mem_cons_self _ _) (le_refl _)
      (le_refl _), rfl, rfl⟩

theorem xxmalloc_reuse_fault (st : State) (s : Nat) (os : Option Nat) (hs : s ≤ 2048)
    (hne : st.free_lists (request_index s) ≠ 0)
    (hacc : ¬ accessible st.mapped (st.free_lists (request_index s)) 8 = true) :
    xxmalloc st s os = Outcome.fault := by
  obtain ⟨hi, hr, _, _⟩ := request_small s hs
  unfold xxmalloc
  rw [if_neg (by omega), hr]
  simp only [free_list_index_class _ hi]
  rw [if_pos hne, if_neg hacc]

/-- Pushing a chunk of a formatted page leaves every formatted page formatted. -/
theorem formatted_after_free (st : State) (b i k b1 i1 v : Nat) (hp : FormattedPage st b i)
    (hk1 : 1 ≤ k) (hk2 : k < PAGE_SIZE / class_size i) (hp1 : FormattedPage st b1 i1) :
    FormattedPage
      { st with mem := storeLE st.mem (b + k * class_size i) 8 v,
                free_lists := Function.update st.free_lists i (b + k * class_size i) } b1 i1 := by
  obtain ⟨hi, h0, hal, hlt, hacc, e1, e2⟩ := hp
  obtain ⟨c1, c2, c3, c4, c5⟩ := chunk_arith i b k hi hal hk1 hk2
  obtain ⟨hi1, h01, hal1, hlt1, hacc1, f1, f2⟩ := hp1
  have hframe : ∀ x, x < b + k * class_size i ∨ b + k * class_size i + 8 ≤ x →
      storeLE st.mem (b + k * class_size i) 8 v x = st.mem x := by
    intro x hx
    simp only [storeLE]
    rw [if_neg (by omega)]
  have hdis : b1 + 16 ≤ b + k * class_size i ∨ b + k * class_size i + 8 ≤ b1 := by
    unfold PAGE_SIZE at *
    omega
  refine ⟨hi1, h01, hal1, hlt1, hacc1, ?_, ?_⟩
  · rw [← f1]
    exact loadLE_congr _ _ 4 b1 (fun x h1 h2 => hframe x (by omega))
  · rw [← f2]
    exact loadLE_congr _ _ 8 (b1 + 8) (fun x h1 h2 => hframe x (by omega))

/-- C17: for every `s ≤ 2048` with index `i`, `xxmalloc(s)` changes no free-list
head other than `free_lists[i]`; when `free_lists[i]` is not NULL it returns the
head, stores the head's next link in `free_lists[i]` and leaves memory and
mappings exactly as they were (or traps on an unmapped head, which does not
happen in a well-behaved run); when it is NULL the memory outside the new page
is unchanged.  For every chunk `p` of a formatted page of class `c`, `xxfree(p)`
changes only `free_lists[log2(c) - 4]` and the 8 bytes at `p`, which lie inside
the chunk of `p` and past the header: the other heads, the mappings, every byte
outside `[p, p + 8)` and hence every page header and every other chunk are
unchanged. -/
theorem small_path_frame :
    (∀ (st : State) (s : Nat) (os : Option Nat), s ≤ 2048 →
      st.free_lists (request_index s) ≠ 0 →
      (xxmalloc st s os = Outcome.ok (st.free_lists (request_index s), after_reuse st s) ∨
        xxmalloc st s os = Outcome.fault) ∧
      (after_reuse st s).mem = st.mem ∧ (after_reuse st s).mapped = st.mapped ∧
      (after_reuse st s).free_lists (request_index s)
        = loadLE st.mem (st.free_lists (request_index s)) 8 ∧
      ∀ j, j ≠ request_index s → (after_reuse st s).free_lists j = st.free_lists j) ∧
    (∀ (st : State) (g : Ghost) (s : Nat) (os : Option Nat), Reach true st g → s ≤ 2048 →
      st.free_lists (request_index s) ≠ 0 →
      xxmalloc st s os = Outcome.ok (st.free_lists (request_index s), after_reuse st s)) ∧
    (∀ (st : State) (s a : Nat), s ≤ 2048 → st.free_lists (request_index s) = 0 →
      a + PAGE_SIZE < 2 ^ 64 →
      xxmalloc st s (some a) = Outcome.ok (a + request_class s, after_fresh st s a) ∧
      (∀ j, j ≠ request_index s → (after_fresh st s a).free_lists j = st.free_lists j) ∧
      (∀ x, x < a ∨ a + PAGE_SIZE ≤ x → (after_fresh st s a).mem x = st.mem x)) ∧
    (∀ (st : State) (b i k : Nat), FormattedPage st b i → 1 ≤ k →
      k < PAGE_SIZE / class_size i →
      free_list_index (class_size i) = some i ∧
      ∃ st1, xxfree st (b + k * class_size i) = Outcome.ok st1 ∧
        st1.free_lists i = b + k * class_size i ∧
        (∀ j, j ≠ i → st1.free_lists j = st.free_lists j) ∧
        st1.mapped = st.mapped ∧
        (∀ x, x < b + k * class_size i ∨ b + k * class_size i + 8 ≤ x → st1.mem x = st.mem x) ∧
        b + 16 ≤ b + k * class_size i ∧
        b + k * class_size i + 8 ≤ b + k * class_size i + class_size i ∧
        b + k * class_size i + class_size i ≤ b + PAGE_SIZE ∧
        ∀ b1 i1, FormattedPage st b1 i1 → FormattedPage st1 b1 i1) := by
  refine ⟨?_, ?_, ?_, ?_⟩
  · intro st s os hs hne
    refine ⟨?_, rfl, rfl, Function.update_same _ _ _, fun j hj => Function.update_noteq hj _ _⟩
    by_cases hacc : accessible st.mapped (st.free_lists (request_index s)) 8 = true
    · exact Or.inl (xxmalloc_reuse_eq st s os hs hne hacc)
    · exact Or.inr (xxmalloc_reuse_fault st s os hs hne hacc)
  · intro st g s os hr hs hne
    obtain ⟨fl, hinv⟩ := reach_inv hr
    obtain ⟨hacc, _⟩ := reuse_accessible hinv _ (request_small s hs).1 hne
    exact xxmalloc_reuse_eq st s os hs hne hacc
  · intro st s a hs hnil ha
    refine ⟨xxmalloc_fresh_eq st s a hs hnil ha, fun j hj => Function.update_noteq hj _ _, ?_⟩
    intro x hx
    obtain ⟨hi, _, hc, _⟩ := request_small s hs
    show slab_mem st.mem a (request_class s) x = st.mem x
    rw [hc]
    exact slab_mem_frame st.mem a _ x hi hx
  · intro st b i k hp hk1 hk2
    obtain ⟨hi, h0, hal, hlt, hacc, e1, e2⟩ := hp
    obtain ⟨c1, c2, c3, c4, c5⟩ := chunk_arith i b k hi hal hk1 hk2
    have hfree := formatted_xxfree st b i k 0 ⟨hi, h0, hal, hlt, hacc, e1, e2⟩ hk1 hk2 (by omega)
    rw [Nat.add_zero] at hfree
    have hframe : ∀ x, x < b + k * class_size i ∨ b + k * class_size i + 8 ≤ x →
        storeLE st.mem (b + k * class_size i) 8 (st.free_lists i) x = st.mem x := by
      intro x hx
      simp only [storeLE]
      rw [if_neg (by omega)]
    exact ⟨free_list_index_class i hi, _, hfree, Function.update_same _ _ _,
      fun j hj => Function.update_noteq hj _ _, rfl, hframe, by omega, by omega, by omega,
      fun b1 i1 hp1 =>
        formatted_after_free st b i k b1 i1 _ ⟨hi, h0, hal, hlt, hacc, e1, e2⟩ hk1 hk2 hp1⟩

/-- An instance: releasing the chunk `0x1800` of the formatted page of `steal_s1`. -/
theorem small_path_frame_witness :
    free_list_index (class_size 7) = some 7 ∧
    ∃ st1, xxfree steal_s1 (4096 + 1 * class_size 7) = Outcome.ok st1 ∧
      st1.free_lists 7 = 4096 + 1 * class_size 7 ∧
      (∀ j, j ≠ 7 → st1.free_lists j = steal_s1.free_lists j) ∧
      st1.mapped = steal_s1.mapped ∧
      (∀ x, x < 4096 + 1 * class_size 7 ∨ 4096 + 1 * class_size 7 + 8 ≤ x →
        st1.mem x = steal_s1.mem x) ∧
      4096 + 16 ≤ 4096 + 1 * class_size 7 ∧
      4096 + 1 * class_size 7 + 8 ≤ 4096 + 1 * class_size 7 + class_size 7 ∧
      4096 + 1 * class_size 7 + class_size 7 ≤ 4096 + PAGE_SIZE ∧
      ∀ b1 i1, FormattedPage steal_s1 b1 i1 → FormattedPage st1 b1 i1 :=
  small_path_frame.2.2.2 steal_s1 4096 7 1 steal_formatted (by decide) (by decide)

/-! ## Double release -/

theorem reach_of_step {st st1 : State} {g g1 : Ghost} (hr : Reach true st g)
    (hs : GuardedStep st g st1 g1) : Reach true st1 g1 := by
  cases hs with
  | malloc_large size a p _ h1 h2 h3 h4 =>
    exact Reach.malloc_large st g size a p st1 hr h1 h2 h3 h4
  | malloc_reuse size os p _ h1 h2 h3 =>
    exact Reach.malloc_reuse st g size os p st1 hr h1 h2 h3
  | malloc_fresh size a p _ h1 h2 h3 h4 =>
    exact Reach.malloc_fresh st g size a p st1 hr h1 h2 h3 h4
  | free p size _ hl hg hx => exact Reach.free st g p size st1 hr hl (fun _ h => hg h) hx
  | write p size a b hl h1 h2 hb => exact Reach.write st g p size a b hr hl h1 h2 hb

theorem reach_of_peak {st : State} {g : Ghost} {pk : Nat → Nat} (h : ReachPeak st g pk) :
    Reach true st g := by
  induction h with
  | init => exact Reach.init
  | step st g pk st1 g1 _ hs ih => exact reach_of_step ih hs

theorem peak_of_reach {st : State} {g : Ghost} (h : Reach true st g) :
    ∃ pk, ReachPeak st g pk := by
  induction h with
  | init => exact ⟨_, ReachPeak.init⟩
  | malloc_large st g size a p st1 _ h1 h2 h3 h4 ih =>
    obtain ⟨pk, hp⟩ := ih
    exact ⟨_, ReachPeak.step st g pk st1 _ hp (GuardedStep.malloc_large st g size a p st1 h1 h2 h3 h4)⟩
  | malloc_reuse st g size os p st1 _ h1 h2 h3 ih =>
    obtain ⟨pk, hp⟩ := ih
    exact ⟨_, ReachPeak.step st g pk st1 _ hp (GuardedStep.malloc_reuse st g size os p st1 h1 h2 h3)⟩
  | malloc_fresh st g size a p st1 _ h1 h2 h3 h4 ih =>
    obtain ⟨pk, hp⟩ := ih
    exact ⟨_, ReachPeak.step st g pk st1 _ hp (GuardedStep.malloc_fresh st g size a p st1 h1 h2 h3 h4)⟩
  | free st g p size st1 _ hl hg hx ih =>
    obtain ⟨pk, hp⟩ := ih
    exact ⟨_, ReachPeak.step st g pk st1 _ hp (GuardedStep.free st g p size st1 hl (hg rfl) hx)⟩
  | write st g p size a b _ hl h1 h2 hb ih =>
    obtain ⟨pk, hp⟩ := ih
    exact ⟨_, ReachPeak.step st g pk _ _ hp (GuardedStep.write st g p size a b hl h1 h2 hb)⟩

theorem maps_only_when_empty (st : State) (s : Nat) (os : Option Nat) (p : Nat) (st1 : State)
    (hs : s ≤ 2048) (hx : xxmalloc st s os = Outcome.ok (p, st1))
    (hgrow : st1.mapped ≠ st.mapped) : st.free_lists (request_index s) = 0 := by
  by_contra hne
  by_cases hacc : accessible st.mapped (st.free_lists (request_index s)) 8 = true
  · rw [xxmalloc_reuse_eq st s os hs hne hacc] at hx
    cases hx
    exact hgrow rfl
  · rw [xxmalloc_reuse_fault st s os hs hne hacc] at hx
    cases hx

end MallocLab
